import Mathlib

/-!
# Verification of the AoT-loop state tooling

A shallow embedding, in Lean 4, of the state-manipulating scripts of the
`ralph-wiggum-aot` repository, together with theorems settling the frozen
claims about them.

The scripts operate on a semi-structured text ledger.  A document is
modelled as its list of lines (`List String`, the result of Python's
`content.split('\n')`).  Each Python function is translated line-for-line:
index-scanning loops become recursive functions carrying the loop state,
`break` becomes an early return, and slicing becomes `List.take`/`List.drop`.
Python string primitives (`strip`, `startswith`, indentation counting) are
reproduced first.  The wall-clock timestamps used by some scripts are passed
in as explicit parameters.
-/

set_option maxHeartbeats 1600000

namespace AotLoop

/-! ## Python string primitives -/

/-- The ASCII whitespace characters stripped by Python's `str.strip()`
(the documents at hand contain no exotic unicode whitespace). -/
def pyWhitespace : List Char := [' ', '\t', '\n', '\r', '\x0b', '\x0c']

/-- Strip every character of `cs` from both ends of `s`
(Python `s.strip(cs)`). -/
def pyStripChars (cs : List Char) (s : String) : String :=
  String.mk (((s.data.dropWhile (fun c => c ∈ cs)).reverse.dropWhile
    (fun c => c ∈ cs)).reverse)

/-- Python `s.strip()`. -/
def pyStrip (s : String) : String := pyStripChars pyWhitespace s

/-- Python `s.lstrip()`. -/
def pyLstrip (s : String) : String :=
  String.mk (s.data.dropWhile (fun c => c ∈ pyWhitespace))

/-- `len(line) - len(line.lstrip())`: the indentation count used throughout
the scripts. -/
def pyIndent (s : String) : Nat := s.length - (pyLstrip s).length

/-- Python `value.strip('"').strip("'")`: strip double quotes, then single
quotes, from both ends. -/
def stripQuotes (s : String) : String :=
  pyStripChars [Char.ofNat 39] (pyStripChars ['"'] s)

/-- Python `sub in s` (substring containment). -/
def pyContains (sub s : String) : Bool :=
  (List.range (s.data.length + 1)).any
    (fun i => sub.data.isPrefixOf (s.data.drop i))

/-- Python `s.startswith(p)`, phrased on the underlying character lists so
that proofs can reason with `List.IsPrefix`. -/
def pyStartsWith (p s : String) : Bool := p.data.isPrefixOf s.data

/-- Python `s.endswith(p)`. -/
def pyEndsWith (p s : String) : Bool := p.data.isSuffixOf s.data

theorem pyStartsWith_iff {p s : String} :
    pyStartsWith p s = true ↔ p.data <+: s.data := by
  simp [pyStartsWith, List.isPrefixOf_iff_prefix]

theorem pyStartsWith_append (p t : String) :
    pyStartsWith p (p ++ t) = true := by
  rw [pyStartsWith_iff, String.data_append]
  exact List.prefix_append _ _

/-- Two incomparable literals cannot both be line heads: if `l` starts with
`p₂` and `p₁` is not a prefix of `p₂` nor `p₂` of `p₁`, then `l` does not
start with `p₁`. -/
theorem pyStartsWith_false_of (p₁ p₂ t : String)
    (h₁ : ¬ p₁.data <+: p₂.data) (h₂ : ¬ p₂.data <+: p₁.data) :
    pyStartsWith p₁ (p₂ ++ t) = false := by
  rw [Bool.eq_false_iff]
  intro hc
  rw [pyStartsWith_iff, String.data_append] at hc
  rcases List.prefix_or_prefix_of_prefix hc (List.prefix_append _ _) with h | h
  · exact h₁ h
  · exact h₂ h

/-- Dropping trailing whitespace from `a ++ [c] ++ b` with `c` not
whitespace keeps the `a ++ [c]` part intact. -/
theorem rdropWs_append (a b : List Char) (c : Char) (hc : ¬ c ∈ pyWhitespace) :
    (((a ++ [c] ++ b).reverse.dropWhile (fun x => x ∈ pyWhitespace)).reverse : List Char)
      = a ++ [c] ++ (b.reverse.dropWhile (fun x => x ∈ pyWhitespace)).reverse := by
  rw [List.reverse_append, List.reverse_append, List.dropWhile_append]
  by_cases hb : (b.reverse.dropWhile (fun x => x ∈ pyWhitespace)).isEmpty
  · rw [if_pos hb]
    rw [List.isEmpty_iff] at hb
    rw [hb]
    simp [List.dropWhile_cons, hc]
  · rw [if_neg hb]
    simp

/-- `pyStrip` of a line that is a non-blank literal key followed by
arbitrary text: the leading-whitespace part of the literal is dropped and
the stripped line still starts with the whitespace-free core of the key. -/
theorem pyStrip_two_space_line (core t : String) (c : Char)
    (hc : ¬ c ∈ pyWhitespace)
    (hhead : ∀ d, core.data.head? = some d → ¬ d ∈ pyWhitespace) :
    pyStrip ("  " ++ (core ++ String.mk [c]) ++ t)
      = core ++ String.mk [c] ++
          String.mk ((t.data.reverse.dropWhile (fun x => x ∈ pyWhitespace)).reverse) := by
  have hdata : ("  " ++ (core ++ String.mk [c]) ++ t).data
      = ' ' :: ' ' :: (core.data ++ [c] ++ t.data) := by
    simp [String.data_append]
  rw [pyStrip, pyStripChars]
  rw [hdata]
  have h1 : (' ' :: ' ' :: (core.data ++ [c] ++ t.data)).dropWhile
      (fun x => x ∈ pyWhitespace) = core.data ++ [c] ++ t.data := by
    rw [List.dropWhile_cons_of_pos (by simp [pyWhitespace]),
      List.dropWhile_cons_of_pos (by simp [pyWhitespace])]
    cases hcore : core.data with
    | nil => simp [List.dropWhile_cons_of_neg, hc]
    | cons d ds =>
      have := hhead d (by rw [hcore]; rfl)
      simp only [hcore, List.cons_append]
      rw [List.dropWhile_cons_of_neg (by simpa using this)]
  rw [h1, rdropWs_append _ _ _ hc]
  apply congrArg String.mk
  simp [String.data_append]

/-! ## Parsed atom records (`read_state.py`)

`parse_atoms` produces, for each atom, a dict holding `id` and `depends_on`
(always present) plus `description` / `status` / `or_group` when the
corresponding lines were seen.  `parse_bindings` produces a dict from atom
id to a dict of string fields; only its keys matter for the frontier. -/

structure AtomR where
  id : String
  depends_on : List String
  description : Option String := none
  status : Option String := none
  or_group : Option String := none
deriving Repr, DecidableEq

/-- One parsed binding: an atom id together with its parsed fields. -/
abbrev BindingEntry := String × List (String × String)

/-- `read_state.get_executable_atoms`: atoms that are pending and whose
dependencies are each either resolved or covered by a binding. -/
def get_executable_atoms (atoms : List AtomR) (bindings : List BindingEntry) :
    List AtomR :=
  let resolved_ids : List String :=
    bindings.map Prod.fst ++
      (atoms.filter (fun a => a.status == some "resolved")).map AtomR.id
  atoms.filter (fun a =>
    a.status == some "pending" &&
      a.depends_on.all (fun d => resolved_ids.contains d))

/-- A dependency id is satisfied when some atom with that id is resolved or a
binding exists under that id (the disjunction of `read_state.py:116-117`). -/
def DepSatisfied (atoms : List AtomR) (bindings : List BindingEntry)
    (d : String) : Prop :=
  (∃ b ∈ atoms, b.id = d ∧ b.status = some "resolved") ∨
    ∃ p ∈ bindings, p.1 = d

theorem mem_resolved_ids {atoms : List AtomR} {bindings : List BindingEntry}
    {d : String} :
    (d ∈ bindings.map Prod.fst ++
        (atoms.filter (fun a => a.status == some "resolved")).map AtomR.id) ↔
      DepSatisfied atoms bindings d := by
  rw [List.mem_append, DepSatisfied, or_comm]
  constructor
  · rintro (h | h)
    · rcases List.mem_map.mp h with ⟨b, hb1, hb2⟩
      rcases List.mem_filter.mp hb1 with ⟨hb3, hb4⟩
      exact Or.inl ⟨b, hb3, hb2, by simpa using hb4⟩
    · rcases List.mem_map.mp h with ⟨p, hp1, hp2⟩
      exact Or.inr ⟨p, hp1, hp2⟩
  · rintro (⟨b, hb, hbid, hbs⟩ | ⟨p, hp1, hp2⟩)
    · exact Or.inl
        (List.mem_map.mpr ⟨b, List.mem_filter.mpr ⟨hb, by simp [hbs]⟩, hbid⟩)
    · exact Or.inr (List.mem_map.mpr ⟨p, hp1, hp2⟩)

theorem mem_get_executable_atoms {atoms : List AtomR}
    {bindings : List BindingEntry} {a : AtomR} :
    a ∈ get_executable_atoms atoms bindings ↔
      a ∈ atoms ∧ a.status = some "pending" ∧
        ∀ d ∈ a.depends_on, DepSatisfied atoms bindings d := by
  unfold get_executable_atoms
  rw [List.mem_filter]
  simp only [Bool.and_eq_true, beq_iff_eq, List.all_eq_true, and_assoc]
  constructor
  · rintro ⟨ha, hp, hdeps⟩
    exact ⟨ha, hp, fun d hd =>
      mem_resolved_ids.mp (by simpa using hdeps d hd)⟩
  · rintro ⟨ha, hp, hdeps⟩
    exact ⟨ha, hp, fun d hd => by simpa using mem_resolved_ids.mpr (hdeps d hd)⟩

/-- C1: for every list of atoms and every bindings map, the computed
executable frontier contains an atom of the list iff that atom's status is
pending and every id in its `depends_on` list is satisfied, where a
dependency id is satisfied exactly when an atom with that id has status
resolved or a binding exists under that id. -/
theorem c1_frontier_membership (atoms : List AtomR)
    (bindings : List BindingEntry) (a : AtomR) (ha : a ∈ atoms) :
    a ∈ get_executable_atoms atoms bindings ↔
      a.status = some "pending" ∧
        ∀ d ∈ a.depends_on, DepSatisfied atoms bindings d := by
  rw [mem_get_executable_atoms]
  exact ⟨fun h => ⟨h.2.1, h.2.2⟩, fun h => ⟨ha, h.1, h.2⟩⟩

theorem c1_frontier_membership_witness :
    (⟨"A1", [], none, some "pending", none⟩ : AtomR) ∈
      get_executable_atoms [⟨"A1", [], none, some "pending", none⟩] [] :=
  (c1_frontier_membership _ _ _ (by decide)).mpr
    ⟨rfl, fun d hd => nomatch hd⟩

/-! ## C9: frontier monotonicity -/

/-- The record-level effect of `update_atom.update_atom_status` when setting
atom `x` to `resolved`: every atom whose id is `x` gets status `resolved`,
every other atom is untouched. -/
def set_atom_resolved (atoms : List AtomR) (x : String) : List AtomR :=
  atoms.map (fun a => if a.id = x then { a with status := some "resolved" } else a)

theorem depSatisfied_mono_resolve {atoms : List AtomR}
    {bindings : List BindingEntry} {x d : String}
    (h : DepSatisfied atoms bindings d) :
    DepSatisfied (set_atom_resolved atoms x) bindings d := by
  rcases h with ⟨b, hb, hbid, hbs⟩ | h
  · left
    by_cases hx : b.id = x
    · refine ⟨{ b with status := some "resolved" }, ?_, hbid, rfl⟩
      exact List.mem_map.mpr ⟨b, hb, by simp [set_atom_resolved, hx]⟩
    · refine ⟨b, ?_, hbid, hbs⟩
      exact List.mem_map.mpr ⟨b, hb, by simp [set_atom_resolved, hx]⟩
  · exact Or.inr h

theorem depSatisfied_mono_bind {atoms : List AtomR}
    {bindings : List BindingEntry} {d : String} (e : BindingEntry)
    (h : DepSatisfied atoms bindings d) :
    DepSatisfied atoms (e :: bindings) d := by
  rcases h with h | ⟨p, hp, hpd⟩
  · exact Or.inl h
  · exact Or.inr ⟨p, List.mem_cons_of_mem _ hp, hpd⟩

/-- C9: resolving an atom `x` (or adding a binding for `x`) never removes any
atom other than `x` from the executable frontier: every atom of the frontier
whose id differs from `x` is still in the frontier afterwards. -/
theorem c9_frontier_monotone (atoms : List AtomR) (bindings : List BindingEntry)
    (x : String) (a : AtomR) (ha : a ∈ get_executable_atoms atoms bindings)
    (hne : a.id ≠ x) :
    a ∈ get_executable_atoms (set_atom_resolved atoms x) bindings ∧
      ∀ e : BindingEntry, e.1 = x →
        a ∈ get_executable_atoms atoms (e :: bindings) := by
  rcases mem_get_executable_atoms.mp ha with ⟨hmem, hp, hdeps⟩
  constructor
  · refine mem_get_executable_atoms.mpr ⟨?_, hp, ?_⟩
    · exact List.mem_map.mpr ⟨a, hmem, by simp [hne]⟩
    · exact fun d hd => depSatisfied_mono_resolve (hdeps d hd)
  · intro e _
    exact mem_get_executable_atoms.mpr
      ⟨hmem, hp, fun d hd => depSatisfied_mono_bind e (hdeps d hd)⟩

theorem c9_frontier_monotone_witness :
    (⟨"A2", [], none, some "pending", none⟩ : AtomR) ∈
      get_executable_atoms
        (set_atom_resolved
          [⟨"A1", [], none, some "pending", none⟩,
           ⟨"A2", [], none, some "pending", none⟩] "A1") [] :=
  (c9_frontier_monotone
    [⟨"A1", [], none, some "pending", none⟩,
     ⟨"A2", [], none, some "pending", none⟩] [] "A1"
    ⟨"A2", [], none, some "pending", none⟩
    ((c1_frontier_membership _ _ _ (by decide)).mpr
      ⟨rfl, fun d hd => nomatch hd⟩)
    (by decide)).1


/-! ## C10: `set_status.py` -/

/-- Truthiness of the optional `--reason` argument (Python `if reason:`):
present and non-empty. -/
def pyTruthyStr : Option String → Bool
  | some r => !(r == "")
  | none => false

/-- One line of `set_status.set_loop_status`: rewrite the two-space-indented
`status:` line, rewrite the two-space-indented `stop_reason:` line according
to `reason`/`status`, and keep every other line. -/
def setStatusLine (status : String) (reason : Option String) (line : String) :
    String :=
  if pyStartsWith "status:" (pyStrip line) && pyStartsWith "  status:" line then
    "  status: " ++ status
  else if pyStartsWith "stop_reason:" (pyStrip line) &&
      pyStartsWith "  stop_reason:" line then
    if pyTruthyStr reason then "  stop_reason: \"" ++ reason.getD "" ++ "\""
    else if status == "completed" then "  stop_reason: null"
    else line
  else line

/-- `set_status.set_loop_status`: the whole document is rewritten line by
line. -/
def set_loop_status (content : List String) (status : String)
    (reason : Option String) : List String :=
  content.map (setStatusLine status reason)

theorem pyStrip_key_line (core t : String) (hcore : core.data.head? = some 's') :
    pyStartsWith (core ++ ":") (pyStrip (("  " ++ (core ++ ":")) ++ t)) = true := by
  have hmk : (String.mk [':'] : String) = ":" := rfl
  have h := pyStrip_two_space_line core t ':' (by decide)
    (by intro d hd; rw [hcore] at hd; cases hd; decide)
  rw [hmk] at h
  have harr : ("  " ++ (core ++ ":") ++ t) = ("  " ++ (core ++ ":")) ++ t := by
    rw [String.append_assoc]
  rw [harr] at h
  rw [h]
  have : core ++ ":" ++ String.mk ((t.data.reverse.dropWhile
      (fun x => x ∈ pyWhitespace)).reverse) = (core ++ ":") ++ String.mk
      ((t.data.reverse.dropWhile (fun x => x ∈ pyWhitespace)).reverse) := rfl
  rw [this]
  exact pyStartsWith_append _ _

theorem setStatusLine_id (status : String) (reason : Option String)
    (l : String) (h1 : pyStartsWith "  status:" l = false)
    (h2 : pyStartsWith "  stop_reason:" l = false) :
    setStatusLine status reason l = l := by
  unfold setStatusLine
  rw [h1, h2]
  simp

theorem setStatusLine_stop_reason (status : String) (reason : Option String)
    (t : String) :
    setStatusLine status reason ("  stop_reason:" ++ t) =
      (if pyTruthyStr reason then "  stop_reason: \"" ++ reason.getD "" ++ "\""
       else if status == "completed" then "  stop_reason: null"
       else "  stop_reason:" ++ t) := by
  unfold setStatusLine
  have h1 : pyStartsWith "  status:" ("  stop_reason:" ++ t) = false :=
    pyStartsWith_false_of _ _ _ (by decide) (by decide)
  have h2 : pyStartsWith "  stop_reason:" ("  stop_reason:" ++ t) = true :=
    pyStartsWith_append _ _
  have h3 : pyStartsWith "stop_reason:" (pyStrip ("  stop_reason:" ++ t)) = true := by
    have := pyStrip_key_line "stop_reason" t rfl
    simpa using this
  rw [h1, h2, h3]
  simp

theorem setStatusLine_status (status : String) (reason : Option String)
    (t : String) :
    setStatusLine status reason ("  status:" ++ t) = "  status: " ++ status := by
  unfold setStatusLine
  have h2 : pyStartsWith "  status:" ("  status:" ++ t) = true :=
    pyStartsWith_append _ _
  have h3 : pyStartsWith "status:" (pyStrip ("  status:" ++ t)) = true := by
    have := pyStrip_key_line "status" t rfl
    simpa using this
  rw [h2, h3]
  simp

/-- C10: `set_status` with status `completed` and no reason rewrites the
`stop_reason:` control line to `null`; with a (non-empty) reason it writes
that reason; and every line that is not a two-space-indented `status:` or
`stop_reason:` line is byte-for-byte unchanged (atoms, bindings, trail and
objective are untouched). -/
theorem c10_set_status_frame (content : List String) (status : String)
    (reason : Option String) :
    ((set_loop_status content status reason).length = content.length) ∧
    (∀ i l, content.get? i = some l →
      pyStartsWith "  status:" l = false →
      pyStartsWith "  stop_reason:" l = false →
      (set_loop_status content status reason).get? i = some l) ∧
    (∀ i t, content.get? i = some ("  stop_reason:" ++ t) →
      status = "completed" → reason = none →
      (set_loop_status content status reason).get? i =
        some "  stop_reason: null") ∧
    (∀ i t r, content.get? i = some ("  stop_reason:" ++ t) →
      reason = some r → r ≠ "" →
      (set_loop_status content status reason).get? i =
        some ("  stop_reason: \"" ++ r ++ "\"")) := by
  refine ⟨by simp [set_loop_status], ?_, ?_, ?_⟩
  · intro i l hl h1 h2
    rw [set_loop_status, List.get?_map, hl]
    simp [setStatusLine_id status reason l h1 h2]
  · intro i t hl hs hr
    rw [set_loop_status, List.get?_map, hl]
    subst hs hr
    simp [setStatusLine_stop_reason, pyTruthyStr]
  · intro i t r hl hr hne
    rw [set_loop_status, List.get?_map, hl]
    subst hr
    simp [setStatusLine_stop_reason, pyTruthyStr, hne]

theorem c10_set_status_frame_witness :
    (set_loop_status ["objective:", "  status: running", "  stop_reason: null",
        "atoms:"] "completed" none).get? 2 = some "  stop_reason: null" ∧
    (set_loop_status ["objective:", "  status: running", "  stop_reason: null",
        "atoms:"] "completed" none).get? 0 = some "objective:" :=
  ⟨(c10_set_status_frame ["objective:", "  status: running",
      "  stop_reason: null", "atoms:"] "completed" none).2.2.1 2 " null"
      (by decide) rfl rfl,
   (c10_set_status_frame ["objective:", "  status: running",
      "  stop_reason: null", "atoms:"] "completed" none).2.1 0 "objective:"
      (by decide) (by decide) (by decide)⟩

/-! ## C4: `verify_checklist.py`

The checklist tree is the parsed `base_case`: each item dict may carry a
`group` (AND), an `any_of` (OR) or a `check` entry, dispatched in that
priority order by `verify_item`.  Leaf checks other than `quality` are
delegated to external scripts (`run_verify_script`); that external world is
abstracted as an `oracle` mapping script name and argument list to the
parsed result.  Result dicts are modelled by the fields the aggregation
logic reads: `passed` (absent = `None`), `skipped` (absent key = falsy),
`item`, and the collected `skipped_items`; the purely textual `evidence`
strings are not modelled. -/

structure CheckR where
  ctype : String := ""
  value : String := ""
  criteria : String := ""
  pass_threshold : String := ""
deriving Repr, DecidableEq

/-- What `run_verify_script` (or the quality shortcut) hands back. -/
structure ScriptRes where
  passed : Option Bool := none
  skipped : Bool := false
deriving Repr, DecidableEq

structure ItemRes where
  item : String
  passed : Option Bool := none
  skipped : Bool := false
  skippedItems : List String := []
deriving Repr, DecidableEq

/-- `verify_checklist.verify_check`: dispatch on the check type; `quality`
short-circuits to a skipped result, an unknown type fails. -/
def verify_check (oracle : String → List String → ScriptRes)
    (check : CheckR) : ScriptRes :=
  if check.ctype = "command" then oracle "verify_command.py" [check.value]
  else if check.ctype = "not_command" then
    oracle "verify_command.py" [check.value, "--expect-fail"]
  else if check.ctype = "file" then oracle "verify_file.py" [check.value]
  else if check.ctype = "not_file" then
    oracle "verify_file.py" [check.value, "--expect-missing"]
  else if check.ctype = "quality" then { passed := none, skipped := true }
  else { passed := some false, skipped := false }

/-- A parsed checklist item: name plus the optional `group` / `any_of` /
`check` entries of the dict. -/
inductive ItemT where
  | mk (item : String) (grp : Option (List ItemT))
      (anyOf : Option (List ItemT)) (check : Option CheckR)

/-- AND accumulation (`all_passed`): a skipped child is ignored, a
non-passing child forces `False`. -/
def andStep (acc : Bool) (r : ItemRes) : Bool :=
  if r.skipped then acc else if r.passed = some true then acc else false

/-- OR accumulation (`any_passed`): a skipped child is ignored, a passing
child forces `True`. -/
def orStep (acc : Bool) (r : ItemRes) : Bool :=
  if r.skipped then acc else if r.passed = some true then true else acc

/-- `verify_checklist.verify_item`: recursive AND/OR/leaf evaluation. -/
def verify_item (oracle : String → List String → ScriptRes) :
    ItemT → ItemRes
  | .mk name grp anyOf chk =>
    match grp with
    | some children =>
      let subs := children.attach.map (fun c => verify_item oracle c.1)
      { item := name
        passed := some (subs.foldl andStep true)
        skipped := false
        skippedItems := (subs.filter (fun r => r.skipped)).map ItemRes.item }
    | none =>
      match anyOf with
      | some children =>
        let subs := children.attach.map (fun c => verify_item oracle c.1)
        { item := name
          passed := some (subs.foldl orStep false)
          skipped := false
          skippedItems := (subs.filter (fun r => r.skipped)).map ItemRes.item }
      | none =>
        match chk with
        | some c =>
          let s := verify_check oracle c
          { item := name, passed := s.passed, skipped := s.skipped,
            skippedItems := [] }
        | none =>
          { item := name, passed := some false, skipped := false,
            skippedItems := [] }
termination_by i => sizeOf i
decreasing_by
  all_goals
    have h := List.sizeOf_lt_of_mem c.2
    simp only [ItemT.mk.sizeOf_spec, Option.some.sizeOf_spec]
    omega

theorem verify_item_group (oracle : String → List String → ScriptRes)
    (name : String) (children : List ItemT) (anyOf : Option (List ItemT))
    (chk : Option CheckR) :
    verify_item oracle (.mk name (some children) anyOf chk) =
      { item := name
        passed := some ((children.map (verify_item oracle)).foldl andStep true)
        skipped := false
        skippedItems := ((children.map (verify_item oracle)).filter
          (fun r => r.skipped)).map ItemRes.item } := by
  rw [verify_item]
  simp [List.map_attach]

theorem verify_item_anyOf (oracle : String → List String → ScriptRes)
    (name : String) (children : List ItemT) (chk : Option CheckR) :
    verify_item oracle (.mk name none (some children) chk) =
      { item := name
        passed := some ((children.map (verify_item oracle)).foldl orStep false)
        skipped := false
        skippedItems := ((children.map (verify_item oracle)).filter
          (fun r => r.skipped)).map ItemRes.item } := by
  rw [verify_item]
  simp [List.map_attach]

theorem foldl_andStep_false (rs : List ItemRes) :
    rs.foldl andStep false = false := by
  induction rs with
  | nil => rfl
  | cons r rs ih =>
    rw [List.foldl_cons]
    have : andStep false r = false := by
      unfold andStep
      split <;> simp_all [andStep]
    rw [this, ih]

theorem foldl_andStep_true_iff (rs : List ItemRes) :
    rs.foldl andStep true = true ↔
      ∀ r ∈ rs, r.skipped = false → r.passed = some true := by
  induction rs with
  | nil => simp
  | cons r rs ih =>
    rw [List.foldl_cons]
    by_cases hs : r.skipped
    · rw [show andStep true r = true by simp [andStep, hs]]
      rw [ih]
      constructor
      · intro h x hx hxs
        rcases List.mem_cons.mp hx with rfl | hx
        · exact absurd hs (by simp [hxs])
        · exact h x hx hxs
      · intro h x hx hxs
        exact h x (List.mem_cons_of_mem _ hx) hxs
    · by_cases hp : r.passed = some true
      · rw [show andStep true r = true by simp [andStep, hs, hp]]
        rw [ih]
        constructor
        · intro h x hx hxs
          rcases List.mem_cons.mp hx with rfl | hx
          · exact hp
          · exact h x hx hxs
        · intro h x hx hxs
          exact h x (List.mem_cons_of_mem _ hx) hxs
      · rw [show andStep true r = false by simp [andStep, hs, hp]]
        rw [foldl_andStep_false]
        simp only [Bool.false_eq_true, false_iff]
        intro h
        exact hp (h r (List.mem_cons_self _ _) (by simpa using hs))

theorem foldl_orStep_true (rs : List ItemRes) :
    rs.foldl orStep true = true := by
  induction rs with
  | nil => rfl
  | cons r rs ih =>
    rw [List.foldl_cons]
    have : orStep true r = true := by
      unfold orStep
      split <;> simp_all [orStep]
    rw [this, ih]

theorem foldl_orStep_false_iff (rs : List ItemRes) :
    rs.foldl orStep false = true ↔
      ∃ r ∈ rs, r.skipped = false ∧ r.passed = some true := by
  induction rs with
  | nil => simp
  | cons r rs ih =>
    rw [List.foldl_cons]
    by_cases hs : r.skipped
    · rw [show orStep false r = false by simp [orStep, hs]]
      rw [ih]
      constructor
      · rintro ⟨x, hx, hxs, hxp⟩
        exact ⟨x, List.mem_cons_of_mem _ hx, hxs, hxp⟩
      · rintro ⟨x, hx, hxs, hxp⟩
        rcases List.mem_cons.mp hx with rfl | hx
        · exact absurd hs (by simp [hxs])
        · exact ⟨x, hx, hxs, hxp⟩
    · by_cases hp : r.passed = some true
      · rw [show orStep false r = true by simp [orStep, hs, hp]]
        rw [foldl_orStep_true]
        simp only [true_iff]
        exact ⟨r, List.mem_cons_self _ _, by simpa using hs, hp⟩
      · rw [show orStep false r = false by simp [orStep, hs, hp]]
        rw [ih]
        constructor
        · rintro ⟨x, hx, hxs, hxp⟩
          exact ⟨x, List.mem_cons_of_mem _ hx, hxs, hxp⟩
        · rintro ⟨x, hx, hxs, hxp⟩
          rcases List.mem_cons.mp hx with rfl | hx
          · exact absurd hxp hp
          · exact ⟨x, hx, hxs, hxp⟩

/-- A concrete oracle for the claimed example instances: a command passes
exactly when its value is `pass.sh`. -/
def demoOracle : String → List String → ScriptRes :=
  fun _ args => { passed := some ((args.getD 0 "") == "pass.sh"), skipped := false }

def passItem : ItemT := .mk "p" none none (some { ctype := "command", value := "pass.sh" })

def failItem : ItemT := .mk "f" none none (some { ctype := "command", value := "fail.sh" })

def skipItem : ItemT := .mk "s" none none
  (some { ctype := "quality", criteria := "crit", pass_threshold := "80" })

/-- C4: AND groups pass iff every non-skipped child passes (all-skipped AND
groups pass, with the children reported as skipped); OR (`any_of`) groups
pass iff some non-skipped child passes (all-skipped OR groups fail); and the
six concrete instances from the spec evaluate as claimed. -/
theorem c4_checklist_aggregation :
    (∀ (oracle : String → List String → ScriptRes) (name : String)
        (children : List ItemT) (anyOf : Option (List ItemT))
        (chk : Option CheckR),
      (verify_item oracle (.mk name (some children) anyOf chk)).passed
          = some true ↔
        ∀ r ∈ children.map (verify_item oracle),
          r.skipped = false → r.passed = some true) ∧
    (∀ (oracle : String → List String → ScriptRes) (name : String)
        (children : List ItemT) (chk : Option CheckR),
      (verify_item oracle (.mk name none (some children) chk)).passed
          = some true ↔
        ∃ r ∈ children.map (verify_item oracle),
          r.skipped = false ∧ r.passed = some true) ∧
    (∀ (oracle : String → List String → ScriptRes) (name : String)
        (children : List ItemT) (anyOf : Option (List ItemT))
        (chk : Option CheckR),
      (verify_item oracle (.mk name (some children) anyOf chk)).skippedItems
        = ((children.map (verify_item oracle)).filter
            (fun r => r.skipped)).map ItemRes.item) ∧
    (verify_item demoOracle (.mk "g" (some [passItem, passItem]) none none)).passed = some true ∧
    (verify_item demoOracle (.mk "g" (some [passItem, failItem]) none none)).passed = some false ∧
    ((verify_item demoOracle (.mk "g" (some [skipItem, skipItem]) none none)).passed = some true ∧
      (verify_item demoOracle (.mk "g" (some [skipItem, skipItem]) none none)).skippedItems = ["s", "s"]) ∧
    (verify_item demoOracle (.mk "g" none (some [failItem, failItem]) none)).passed = some false ∧
    (verify_item demoOracle (.mk "g" none (some [failItem, passItem]) none)).passed = some true ∧
    (verify_item demoOracle (.mk "g" none (some [skipItem, skipItem]) none)).passed = some false := by
  refine ⟨?_, ?_, ?_, ?_, ?_, ⟨?_, ?_⟩, ?_, ?_, ?_⟩
  · intro oracle name children anyOf chk
    rw [verify_item_group]
    simpa using foldl_andStep_true_iff (children.map (verify_item oracle))
  · intro oracle name children chk
    rw [verify_item_anyOf]
    simpa using foldl_orStep_false_iff (children.map (verify_item oracle))
  · intro oracle name children anyOf chk
    rw [verify_item_group]
  all_goals
    simp [verify_item_group, verify_item_anyOf, verify_item, verify_check,
      demoOracle, passItem, failItem, skipItem, andStep, orStep]

/-! ## C2: `validate_state.detect_cycle`

`detect_cycle` builds `atom_map = {a['id']: a for a in atoms}` (later
duplicates win) and runs a depth-first search from every atom, carrying a
shared `visited` set and a per-root `path` stack.  The recursion is embedded
with an explicit fuel argument (the Python recursion terminates because
`visited` only grows); `detect_cycle` supplies fuel one larger than the
number of identifier occurrences in the input, which is proved sufficient
below. -/

structure AtomC where
  id : String
  depends_on : List String
deriving Repr, DecidableEq

/-- `atom_map.get`: the last atom of the list carrying the given id, if
any (Python dict comprehensions let later entries overwrite earlier ones). -/
def lastAtom? (atoms : List AtomC) (x : String) : Option AtomC :=
  atoms.foldl (fun acc a => if a.id = x then some a else acc) none

/-- The dependency list the DFS follows from node `x`
(`atom.get('depends_on', [])` after `atom_map.get(node_id)`). -/
def atomDeps (atoms : List AtomC) (x : String) : List String :=
  match lastAtom? atoms x with
  | some a => a.depends_on
  | none => []

/-- The edge relation of the dependency graph as traversed by the DFS. -/
def Edge (atoms : List AtomC) (x y : String) : Prop := y ∈ atomDeps atoms x

/-- A graph has a cycle when some node reaches itself by at least one edge. -/
def HasCycle (atoms : List AtomC) : Prop :=
  ∃ x, Relation.TransGen (Edge atoms) x x

/-- The loop `for dep in atom.get('depends_on', [])` of `dfs`: run `next`
(one more level of `dfs`) on each dependency, threading the visited set and
stopping at the first cycle. -/
def dfsSteps
    (next : String → List String → List String →
      Option (List String × Option (List String))) :
    List String → List String → List String →
      Option (List String × Option (List String))
  | [], visited, _ => some (visited, none)
  | d :: ds, visited, path =>
    match next d visited path with
    | none => none
    | some (v, some cyc) => some (v, some cyc)
    | some (v, none) => dfsSteps next ds v path

/-- `validate_state.dfs`: returns the updated visited set, plus the cyclic
path (`path[path.index(node):] + [node]`) when a node already on the current
path is revisited.  `none` signals fuel exhaustion (never reached with the
fuel supplied by `detect_cycle`). -/
def dfsA (atoms : List AtomC) :
    Nat → String → List String → List String →
      Option (List String × Option (List String))
  | 0, _, _, _ => none
  | fuel + 1, node, visited, path =>
    if node ∈ path then
      some (visited, some (path.drop (path.indexOf node) ++ [node]))
    else if node ∈ visited then some (visited, none)
    else
      dfsSteps (dfsA atoms fuel) (atomDeps atoms node)
        (node :: visited) (path ++ [node])

/-- Every identifier occurrence in the input: atom ids and dependency
entries.  Its length bounds how often the DFS can grow `visited`. -/
def pyUniverse (atoms : List AtomC) : List String :=
  atoms.foldr (fun a acc => a.id :: (a.depends_on ++ acc)) []

/-- The loop `for atom in atoms: cycle = dfs(atom['id'], visited, [])`. -/
def detectGo (atoms : List AtomC) (fuel : Nat) :
    List AtomC → List String → Option (List String)
  | [], _ => some []
  | a :: rest, visited =>
    match dfsA atoms fuel a.id visited [] with
    | none => none
    | some (_, some cyc) => some cyc
    | some (v, none) => detectGo atoms fuel rest v

/-- `validate_state.detect_cycle`. -/
def detect_cycle (atoms : List AtomC) : List String :=
  (detectGo atoms ((pyUniverse atoms).length + 1) atoms []).getD []

example : detect_cycle
    [ { id := "A", depends_on := ["B"] },
      { id := "B", depends_on := ["C"] },
      { id := "C", depends_on := ["A"] } ] = ["A", "B", "C", "A"] := by decide

example : detect_cycle
    [ { id := "A", depends_on := [] },
      { id := "B", depends_on := ["A"] } ] = [] := by decide

theorem dfsSteps_mono {next : String → List String → List String →
      Option (List String × Option (List String))}
    (hnext : ∀ d v p v' r, next d v p = some (v', r) → v ⊆ v') :
    ∀ ds v p v' r, dfsSteps next ds v p = some (v', r) → v ⊆ v' := by
  intro ds
  induction ds with
  | nil =>
    intro v p v' r h
    simp only [dfsSteps, Option.some.injEq, Prod.mk.injEq] at h
    rw [← h.1]
    exact fun x hx => hx
  | cons d ds ih =>
    intro v p v' r h
    simp only [dfsSteps] at h
    cases hn : next d v p with
    | none => rw [hn] at h; cases h
    | some pr =>
      obtain ⟨v1, r1⟩ := pr
      rw [hn] at h
      cases r1 with
      | some cyc =>
        simp only [Option.some.injEq, Prod.mk.injEq] at h
        rw [← h.1]
        exact hnext d v p v1 (some cyc) hn
      | none =>
        exact (hnext d v p v1 none hn).trans (ih v1 p v' r h)

theorem dfsA_mono (atoms : List AtomC) :
    ∀ fuel node v p v' r, dfsA atoms fuel node v p = some (v', r) → v ⊆ v' := by
  intro fuel
  induction fuel with
  | zero => intro node v p v' r h; cases h
  | succ fuel ih =>
    intro node v p v' r h
    rw [dfsA] at h
    split_ifs at h with h1 h2
    · simp only [Option.some.injEq, Prod.mk.injEq] at h
      rw [← h.1]
      exact fun x hx => hx
    · simp only [Option.some.injEq, Prod.mk.injEq] at h
      rw [← h.1]
      exact fun x hx => hx
    · exact (List.subset_cons_self node v).trans
        (dfsSteps_mono (fun d v p v' r hh => ih d v p v' r hh) _ _ _ _ _ h)

theorem dfsA_none_res (atoms : List AtomC) :
    ∀ fuel node v p v', dfsA atoms fuel node v p = some (v', none) →
      node ∈ v' ∧ node ∉ p := by
  intro fuel
  cases fuel with
  | zero => intro node v p v' h; cases h
  | succ fuel =>
    intro node v p v' h
    rw [dfsA] at h
    split_ifs at h with h1 h2
    · simp at h
    · simp only [Option.some.injEq, Prod.mk.injEq] at h
      exact ⟨h.1 ▸ h2, h1⟩
    · refine ⟨?_, h1⟩
      exact dfsSteps_mono (fun d v p v' r hh => dfsA_mono atoms fuel d v p v' r hh)
        _ _ _ _ _ h (List.mem_cons_self node v)

theorem dfsSteps_cyc_ne_nil {next : String → List String → List String →
      Option (List String × Option (List String))}
    (hnext : ∀ d v p v' cyc, next d v p = some (v', some cyc) → cyc ≠ []) :
    ∀ ds v p v' cyc, dfsSteps next ds v p = some (v', some cyc) → cyc ≠ [] := by
  intro ds
  induction ds with
  | nil => intro v p v' cyc h; simp [dfsSteps] at h
  | cons d ds ih =>
    intro v p v' cyc h
    simp only [dfsSteps] at h
    cases hn : next d v p with
    | none => rw [hn] at h; cases h
    | some pr =>
      obtain ⟨v1, r1⟩ := pr
      rw [hn] at h
      cases r1 with
      | some c =>
        simp only [Option.some.injEq, Prod.mk.injEq] at h
        rw [← h.2]
        exact hnext d v p v1 c hn
      | none => exact ih v1 p v' cyc h

theorem dfsA_cyc_ne_nil (atoms : List AtomC) :
    ∀ fuel node v p v' cyc, dfsA atoms fuel node v p = some (v', some cyc) →
      cyc ≠ [] := by
  intro fuel
  induction fuel with
  | zero => intro node v p v' cyc h; cases h
  | succ fuel ih =>
    intro node v p v' cyc h
    rw [dfsA] at h
    split_ifs at h with h1 h2
    · simp only [Option.some.injEq, Prod.mk.injEq] at h
      rw [← h.2]
      simp
    · simp at h
    · exact dfsSteps_cyc_ne_nil (fun d v p v' c hh => ih d v p v' c hh)
        _ _ _ _ _ h

theorem chain'_append_singleton {atoms : List AtomC} {l : List String}
    {a b : String} (hc : List.Chain' (Edge atoms) (l ++ [a]))
    (hab : Edge atoms a b) : List.Chain' (Edge atoms) ((l ++ [a]) ++ [b]) := by
  rw [List.chain'_append]
  refine ⟨hc, List.chain'_singleton b, ?_⟩
  intro x hx y hy
  rw [List.getLast?_concat] at hx
  simp only [Option.mem_def, Option.some.injEq] at hx
  simp only [List.head?_cons, Option.mem_def, Option.some.injEq] at hy
  subst hx
  subst hy
  exact hab

theorem chain'_closed_transGen {atoms : List AtomC} :
    ∀ (m : List String) (x y : String),
      List.Chain' (Edge atoms) (x :: (m ++ [y])) →
        Relation.TransGen (Edge atoms) x y := by
  intro m
  induction m with
  | nil =>
    intro x y hc
    rw [List.nil_append, List.chain'_cons] at hc
    exact Relation.TransGen.single hc.1
  | cons z m ih =>
    intro x y hc
    rw [List.cons_append, List.chain'_cons] at hc
    exact Relation.TransGen.head hc.1 (ih z y hc.2)

theorem dfsSteps_sound {atoms : List AtomC}
    {next : String → List String → List String →
      Option (List String × Option (List String))} (path : List String)
    (hnext : ∀ d v v' cyc, List.Chain' (Edge atoms) (path ++ [d]) →
      next d v path = some (v', some cyc) → HasCycle atoms) :
    ∀ ds v v' cyc, (∀ d ∈ ds, List.Chain' (Edge atoms) (path ++ [d])) →
      dfsSteps next ds v path = some (v', some cyc) → HasCycle atoms := by
  intro ds
  induction ds with
  | nil => intro v v' cyc _ h; simp [dfsSteps] at h
  | cons d ds ih =>
    intro v v' cyc hch h
    simp only [dfsSteps] at h
    cases hn : next d v path with
    | none => rw [hn] at h; cases h
    | some pr =>
      obtain ⟨v1, r1⟩ := pr
      rw [hn] at h
      cases r1 with
      | some c => exact hnext d v v1 c (hch d (List.mem_cons_self d ds)) hn
      | none =>
        exact ih v1 v' cyc (fun e he => hch e (List.mem_cons_of_mem d he)) h

theorem dfsA_sound (atoms : List AtomC) :
    ∀ fuel node v p v' cyc,
      List.Chain' (Edge atoms) (p ++ [node]) →
      dfsA atoms fuel node v p = some (v', some cyc) → HasCycle atoms := by
  intro fuel
  induction fuel with
  | zero => intro node v p v' cyc _ h; cases h
  | succ fuel ih =>
    intro node v p v' cyc hch h
    rw [dfsA] at h
    split_ifs at h with h1 h2
    · -- node is on the current path: the sliced path is a closed chain
      have hi : p.indexOf node < p.length := List.indexOf_lt_length.mpr h1
      have hdrop : p.drop (p.indexOf node) =
          node :: p.drop (p.indexOf node + 1) := by
        rw [List.drop_eq_getElem_cons hi, List.getElem_indexOf hi]
      have hsub : p.drop (p.indexOf node) ++ [node] <:+ p ++ [node] := by
        have h0 := List.drop_suffix (p.indexOf node) (p ++ [node])
        rwa [List.drop_append_of_le_length (Nat.le_of_lt hi)] at h0
      have hsuff : List.Chain' (Edge atoms) (p.drop (p.indexOf node) ++ [node]) :=
        List.Chain'.suffix hch hsub
      rw [hdrop, List.cons_append] at hsuff
      exact ⟨node, chain'_closed_transGen _ node node hsuff⟩
    · simp at h
    · refine dfsSteps_sound (p ++ [node])
        (fun d v v'' c hc hh => ih d v (p ++ [node]) v'' c hc hh)
        (atomDeps atoms node) (node :: v) v' cyc ?_ h
      intro d hd
      exact chain'_append_singleton hch hd

/-- The "finished" nodes of the DFS: visited nodes off the current path.
They are closed under edges and none of them lies on a cycle. -/
def BlackInv (atoms : List AtomC) (visited path : List String) : Prop :=
  (∀ v ∈ visited, v ∉ path → ∀ w, Edge atoms v w → w ∈ visited ∧ w ∉ path) ∧
  (∀ v ∈ visited, v ∉ path → ¬ Relation.TransGen (Edge atoms) v v)

theorem blackInv_rtg {atoms : List AtomC} {visited path : List String}
    (hcl : ∀ v ∈ visited, v ∉ path → ∀ w, Edge atoms v w →
      w ∈ visited ∧ w ∉ path) :
    ∀ u z, Relation.ReflTransGen (Edge atoms) u z → u ∈ visited → u ∉ path →
      z ∈ visited ∧ z ∉ path := by
  intro u z hrtg
  induction hrtg with
  | refl => intro hu hup; exact ⟨hu, hup⟩
  | tail h1 h2 ih =>
    intro hu hup
    obtain ⟨hb, hbp⟩ := ih hu hup
    exact hcl _ hb hbp _ h2

theorem blackInv_no_new_cycle {atoms : List AtomC} {vk path1 : List String}
    {node : String}
    (hcl : ∀ v ∈ vk, v ∉ path1 → ∀ w, Edge atoms v w → w ∈ vk ∧ w ∉ path1)
    (hnodep : node ∈ path1)
    (hdeps : ∀ d ∈ atomDeps atoms node, d ∈ vk ∧ d ∉ path1) :
    ¬ Relation.TransGen (Edge atoms) node node := by
  intro ht
  rw [Relation.TransGen.head'_iff] at ht
  obtain ⟨w, hw, hrtg⟩ := ht
  obtain ⟨hwv, hwp⟩ := hdeps w hw
  exact (blackInv_rtg hcl w node hrtg hwv hwp).2 hnodep

theorem dfsSteps_complete {atoms : List AtomC}
    {next : String → List String → List String →
      Option (List String × Option (List String))} (path : List String)
    (hnext : ∀ d v v', BlackInv atoms v path → next d v path = some (v', none) →
      BlackInv atoms v' path ∧ d ∈ v' ∧ d ∉ path ∧ v ⊆ v') :
    ∀ ds v v', BlackInv atoms v path → dfsSteps next ds v path = some (v', none) →
      BlackInv atoms v' path ∧ (∀ d ∈ ds, d ∈ v' ∧ d ∉ path) ∧ v ⊆ v' := by
  intro ds
  induction ds with
  | nil =>
    intro v v' hinv h
    simp only [dfsSteps, Option.some.injEq, Prod.mk.injEq] at h
    rw [← h.1]
    exact ⟨hinv, fun d hd => absurd hd (List.not_mem_nil d), fun x hx => hx⟩
  | cons d ds ih =>
    intro v v' hinv h
    simp only [dfsSteps] at h
    cases hn : next d v path with
    | none => rw [hn] at h; cases h
    | some pr =>
      obtain ⟨v1, r1⟩ := pr
      rw [hn] at h
      cases r1 with
      | some c => simp at h
      | none =>
        obtain ⟨hinv1, hd1, hdp1, hsub1⟩ := hnext d v v1 hinv hn
        obtain ⟨hinv2, hall2, hsub2⟩ := ih v1 v' hinv1 h
        refine ⟨hinv2, ?_, hsub1.trans hsub2⟩
        intro e he
        rcases List.mem_cons.mp he with rfl | he
        · exact ⟨hsub2 hd1, hdp1⟩
        · exact hall2 e he

theorem dfsA_complete (atoms : List AtomC) :
    ∀ fuel node v p v', BlackInv atoms v p →
      dfsA atoms fuel node v p = some (v', none) →
      BlackInv atoms v' p ∧ node ∈ v' ∧ node ∉ p ∧ v ⊆ v' := by
  intro fuel
  induction fuel with
  | zero => intro node v p v' _ h; cases h
  | succ fuel ih =>
    intro node v p v' hinv h
    rw [dfsA] at h
    split_ifs at h with h1 h2
    · simp at h
    · simp only [Option.some.injEq, Prod.mk.injEq] at h
      rw [← h.1]
      exact ⟨hinv, h2, h1, fun x hx => hx⟩
    · -- fresh node: explore the dependencies with the extended path
      have hinv1 : BlackInv atoms (node :: v) (p ++ [node]) := by
        constructor
        · intro x hx hxp w hw
          rcases List.mem_cons.mp hx with rfl | hx
          · exact absurd (List.mem_append_right p (List.mem_singleton_self x)) hxp
          · have hxp' : x ∉ p := fun hc => hxp (List.mem_append_left _ hc)
            obtain ⟨hwv, hwp⟩ := hinv.1 x hx hxp' w hw
            refine ⟨List.mem_cons_of_mem node hwv, ?_⟩
            intro hc
            rcases List.mem_append.mp hc with hc | hc
            · exact hwp hc
            · rw [List.mem_singleton] at hc
              exact h2 (hc ▸ hwv)
        · intro x hx hxp
          rcases List.mem_cons.mp hx with rfl | hx
          · exact absurd (List.mem_append_right p (List.mem_singleton_self x)) hxp
          · exact hinv.2 x hx (fun hc => hxp (List.mem_append_left _ hc))
      obtain ⟨hinvk, hdeps, hsubk⟩ := dfsSteps_complete (p ++ [node])
        (fun d w w' hi hh => ih d w (p ++ [node]) w' hi hh)
        (atomDeps atoms node) (node :: v) v' hinv1 h
      have hnodep1 : node ∈ p ++ [node] :=
        List.mem_append_right p (List.mem_singleton_self node)
      refine ⟨⟨?_, ?_⟩, hsubk (List.mem_cons_self node v), h1,
        (List.subset_cons_self node v).trans hsubk⟩
      · intro x hx hxp w hw
        by_cases hxn : x = node
        · subst hxn
          obtain ⟨hwv, hwp⟩ := hdeps w hw
          exact ⟨hwv, fun hc => hwp (List.mem_append_left _ hc)⟩
        · have hxp1 : x ∉ p ++ [node] := by
            intro hc
            rcases List.mem_append.mp hc with hc | hc
            · exact hxp hc
            · exact hxn (List.mem_singleton.mp hc)
          obtain ⟨hwv, hwp⟩ := hinvk.1 x hx hxp1 w hw
          exact ⟨hwv, fun hc => hwp (List.mem_append_left _ hc)⟩
      · intro x hx hxp
        by_cases hxn : x = node
        · subst hxn
          exact blackInv_no_new_cycle hinvk.1 hnodep1 hdeps
        · refine hinvk.2 x hx ?_
          intro hc
          rcases List.mem_append.mp hc with hc | hc
          · exact hxp hc
          · exact hxn (List.mem_singleton.mp hc)

/-- How many identifier occurrences of `U` are still unvisited: the DFS
recursion measure. -/
def univCount (U v : List String) : Nat :=
  (U.filter (fun x => decide (x ∉ v))).length

theorem univCount_anti (U : List String) {v v' : List String} (h : v ⊆ v') :
    univCount U v' ≤ univCount U v := by
  induction U with
  | nil => exact Nat.le_refl _
  | cons u U ih =>
    simp only [univCount, List.filter_cons] at *
    by_cases h1 : u ∈ v'
    · rw [show (decide (u ∉ v') = false) by simp [h1]]
      by_cases h3 : u ∈ v
      · rw [show (decide (u ∉ v) = false) by simp [h3]]
        exact ih
      · rw [show (decide (u ∉ v) = true) by simp [h3]]
        simp only [List.length_cons]
        exact Nat.le_succ_of_le ih
    · have h3 : u ∉ v := fun hc => h1 (h hc)
      rw [show (decide (u ∉ v') = true) by simp [h1],
        show (decide (u ∉ v) = true) by simp [h3]]
      simp only [List.length_cons]
      exact Nat.succ_le_succ ih

theorem univCount_cons_lt (U v : List String) (node : String)
    (hU : node ∈ U) (hv : node ∉ v) :
    univCount U (node :: v) < univCount U v := by
  induction U with
  | nil => cases hU
  | cons u U ih =>
    simp only [univCount, List.filter_cons] at *
    by_cases hu : u = node
    · subst hu
      rw [show (decide (u ∉ u :: v) = false) by simp,
        show (decide (u ∉ v) = true) by simp [hv]]
      simp only [List.length_cons]
      exact Nat.lt_succ_of_le (univCount_anti U (List.subset_cons_self u v))
    · have hU' : node ∈ U := by
        rcases List.mem_cons.mp hU with hc | hc
        · exact absurd hc.symm hu
        · exact hc
      by_cases h3 : u ∈ v
      · rw [show (decide (u ∉ node :: v) = false) by simp [List.mem_cons, h3],
          show (decide (u ∉ v) = false) by simp [h3]]
        exact ih hU'
      · have h4 : u ∉ node :: v := by
          intro hc
          rcases List.mem_cons.mp hc with hc | hc
          · exact hu hc
          · exact h3 hc
        rw [show (decide (u ∉ node :: v) = true) by simp [h4],
          show (decide (u ∉ v) = true) by simp [h3]]
        simp only [List.length_cons]
        exact Nat.succ_lt_succ (ih hU')

theorem lastAtom?_aux :
    ∀ (atoms : List AtomC) (init : Option AtomC) (x : String) (a : AtomC),
      atoms.foldl (fun acc b => if b.id = x then some b else acc) init = some a →
        init = some a ∨ (a ∈ atoms ∧ a.id = x) := by
  intro atoms
  induction atoms with
  | nil => intro init x a h; exact Or.inl h
  | cons b atoms ih =>
    intro init x a h
    rw [List.foldl_cons] at h
    rcases ih _ x a h with h' | h'
    · by_cases hb : b.id = x
      · rw [if_pos hb] at h'
        have : b = a := by injection h'
        exact Or.inr ⟨this ▸ List.mem_cons_self b atoms, this ▸ hb⟩
      · rw [if_neg hb] at h'
        exact Or.inl h'
    · exact Or.inr ⟨List.mem_cons_of_mem _ h'.1, h'.2⟩

theorem lastAtom?_mem (atoms : List AtomC) (x : String) (a : AtomC)
    (h : lastAtom? atoms x = some a) : a ∈ atoms ∧ a.id = x := by
  rcases lastAtom?_aux atoms none x a h with h' | h'
  · cases h'
  · exact h'

theorem mem_pyUniverse_id (atoms : List AtomC) :
    ∀ a ∈ atoms, a.id ∈ pyUniverse atoms := by
  induction atoms with
  | nil => intro a ha; cases ha
  | cons b atoms ih =>
    intro a ha
    show a.id ∈ b.id :: (b.depends_on ++ pyUniverse atoms)
    rcases List.mem_cons.mp ha with rfl | ha
    · exact List.mem_cons_self _ _
    · exact List.mem_cons_of_mem _ (List.mem_append_right _ (ih a ha))

theorem mem_pyUniverse_deps (atoms : List AtomC) :
    ∀ a ∈ atoms, ∀ d ∈ a.depends_on, d ∈ pyUniverse atoms := by
  induction atoms with
  | nil => intro a ha; cases ha
  | cons b atoms ih =>
    intro a ha d hd
    show d ∈ b.id :: (b.depends_on ++ pyUniverse atoms)
    rcases List.mem_cons.mp ha with rfl | ha
    · exact List.mem_cons_of_mem _ (List.mem_append_left _ hd)
    · exact List.mem_cons_of_mem _ (List.mem_append_right _ (ih a ha d hd))

theorem atomDeps_subset_univ (atoms : List AtomC) (x : String) :
    ∀ d ∈ atomDeps atoms x, d ∈ pyUniverse atoms := by
  intro d hd
  unfold atomDeps at hd
  cases hA : lastAtom? atoms x with
  | none => rw [hA] at hd; cases hd
  | some a =>
    rw [hA] at hd
    obtain ⟨ha, -⟩ := lastAtom?_mem atoms x a hA
    exact mem_pyUniverse_deps atoms a ha d hd

theorem dfsSteps_fuel {U : List String} (fuel : Nat)
    {next : String → List String → List String →
      Option (List String × Option (List String))} (path : List String)
    (hnext : ∀ d v, d ∈ U → v ⊆ U → univCount U v < fuel →
      ∃ v' r, next d v path = some (v', r) ∧ v' ⊆ U)
    (hmono : ∀ d v v' r, next d v path = some (v', r) → v ⊆ v') :
    ∀ ds v, (∀ d ∈ ds, d ∈ U) → v ⊆ U → univCount U v < fuel →
      ∃ v' r, dfsSteps next ds v path = some (v', r) ∧ v' ⊆ U := by
  intro ds
  induction ds with
  | nil =>
    intro v _ hvU _
    exact ⟨v, none, rfl, hvU⟩
  | cons d ds ih =>
    intro v hds hvU hcnt
    obtain ⟨v1, r1, hn, hv1U⟩ :=
      hnext d v (hds d (List.mem_cons_self d ds)) hvU hcnt
    cases r1 with
    | some c =>
      refine ⟨v1, some c, ?_, hv1U⟩
      simp only [dfsSteps]
      rw [hn]
    | none =>
      have hcnt1 : univCount U v1 < fuel :=
        Nat.lt_of_le_of_lt (univCount_anti U (hmono d v v1 none hn)) hcnt
      obtain ⟨v', r, hst, hv'U⟩ :=
        ih v1 (fun e he => hds e (List.mem_cons_of_mem d he)) hv1U hcnt1
      refine ⟨v', r, ?_, hv'U⟩
      simp only [dfsSteps]
      rw [hn]
      exact hst

theorem dfsA_fuel (atoms : List AtomC) :
    ∀ fuel node v p, node ∈ pyUniverse atoms → v ⊆ pyUniverse atoms →
      univCount (pyUniverse atoms) v < fuel →
      ∃ v' r, dfsA atoms fuel node v p = some (v', r) ∧
        v' ⊆ pyUniverse atoms := by
  intro fuel
  induction fuel with
  | zero => intro node v p _ _ hcnt; exact absurd hcnt (Nat.not_lt_zero _)
  | succ fuel ih =>
    intro node v p hnU hvU hcnt
    by_cases h1 : node ∈ p
    · exact ⟨v, some (p.drop (p.indexOf node) ++ [node]),
        by rw [dfsA, if_pos h1], hvU⟩
    · by_cases h2 : node ∈ v
      · exact ⟨v, none, by rw [dfsA, if_neg h1, if_pos h2], hvU⟩
      · have hsubU : node :: v ⊆ pyUniverse atoms := by
          intro x hx
          rcases List.mem_cons.mp hx with rfl | hx
          · exact hnU
          · exact hvU hx
        have hcnt1 : univCount (pyUniverse atoms) (node :: v) < fuel := by
          have := univCount_cons_lt (pyUniverse atoms) v node hnU h2
          omega
        obtain ⟨v', r, hst, hv'U⟩ := dfsSteps_fuel fuel (p ++ [node])
          (fun d w hdU hwU hc => ih d w (p ++ [node]) hdU hwU hc)
          (fun d w w' r hh => dfsA_mono atoms fuel d w (p ++ [node]) w' r hh)
          (atomDeps atoms node) (node :: v)
          (atomDeps_subset_univ atoms node) hsubU hcnt1
        exact ⟨v', r, by rw [dfsA, if_neg h1, if_neg h2]; exact hst, hv'U⟩

theorem detectGo_fuel (atoms : List AtomC) (fuel : Nat) :
    ∀ rest v, (∀ a ∈ rest, a ∈ atoms) → v ⊆ pyUniverse atoms →
      univCount (pyUniverse atoms) v < fuel →
      (detectGo atoms fuel rest v).isSome := by
  intro rest
  induction rest with
  | nil => intro v _ _ _; rfl
  | cons a rest ih =>
    intro v hrest hvU hcnt
    obtain ⟨v1, r, hd, hv1U⟩ := dfsA_fuel atoms fuel a.id v []
      (mem_pyUniverse_id atoms a (hrest a (List.mem_cons_self a rest))) hvU hcnt
    cases r with
    | some c =>
      rw [detectGo, hd]
      rfl
    | none =>
      rw [detectGo, hd]
      have hcnt1 : univCount (pyUniverse atoms) v1 < fuel :=
        Nat.lt_of_le_of_lt
          (univCount_anti _ (dfsA_mono atoms fuel a.id v [] v1 none hd)) hcnt
      exact ih v1 (fun b hb => hrest b (List.mem_cons_of_mem a hb)) hv1U hcnt1

theorem detectGo_sound (atoms : List AtomC) (fuel : Nat) :
    ∀ rest v cyc, detectGo atoms fuel rest v = some cyc → cyc ≠ [] →
      HasCycle atoms := by
  intro rest
  induction rest with
  | nil =>
    intro v cyc h hne
    simp only [detectGo, Option.some.injEq] at h
    exact absurd h.symm hne
  | cons a rest ih =>
    intro v cyc h hne
    rw [detectGo] at h
    cases hd : dfsA atoms fuel a.id v [] with
    | none => rw [hd] at h; cases h
    | some pr =>
      obtain ⟨v1, r⟩ := pr
      rw [hd] at h
      cases r with
      | some c =>
        simp only [Option.some.injEq] at h
        exact dfsA_sound atoms fuel a.id v [] v1 c
          (by simp only [List.nil_append]; exact List.chain'_singleton a.id) hd
      | none => exact ih v1 cyc h hne

theorem detectGo_complete (atoms : List AtomC) (fuel : Nat) :
    ∀ rest v, BlackInv atoms v [] → detectGo atoms fuel rest v = some [] →
      ∃ v', BlackInv atoms v' [] ∧ (∀ a ∈ rest, a.id ∈ v') ∧ v ⊆ v' := by
  intro rest
  induction rest with
  | nil =>
    intro v hinv _
    exact ⟨v, hinv, fun a ha => absurd ha (List.not_mem_nil a), fun x hx => hx⟩
  | cons a rest ih =>
    intro v hinv h
    rw [detectGo] at h
    cases hd : dfsA atoms fuel a.id v [] with
    | none => rw [hd] at h; cases h
    | some pr =>
      obtain ⟨v1, r⟩ := pr
      rw [hd] at h
      cases r with
      | some c =>
        simp only [Option.some.injEq] at h
        exact absurd h (dfsA_cyc_ne_nil atoms fuel a.id v [] v1 c hd)
      | none =>
        obtain ⟨hinv1, haid, -, hsub1⟩ :=
          dfsA_complete atoms fuel a.id v [] v1 hinv hd
        obtain ⟨v', hinv', hall', hsub'⟩ := ih v1 hinv1 h
        refine ⟨v', hinv', ?_, hsub1.trans hsub'⟩
        intro b hb
        rcases List.mem_cons.mp hb with rfl | hb
        · exact hsub' haid
        · exact hall' b hb

/-- C2: for every atom list, `detect_cycle` returns the empty result iff the
dependency graph is acyclic; and on the 3-cycle `A → B → C → A` it returns
exactly `[A, B, C, A]` (the three ids in traversal order followed by the
repeated starting node). -/
theorem c2_detect_cycle_iff_acyclic :
    (∀ atoms : List AtomC, detect_cycle atoms = [] ↔ ¬ HasCycle atoms) ∧
    detect_cycle
      [ { id := "A", depends_on := ["B"] },
        { id := "B", depends_on := ["C"] },
        { id := "C", depends_on := ["A"] } ] = ["A", "B", "C", "A"] := by
  refine ⟨?_, by decide⟩
  intro atoms
  constructor
  · intro h
    have hcnt : univCount (pyUniverse atoms) [] <
        (pyUniverse atoms).length + 1 := by
      unfold univCount
      have hfil : (pyUniverse atoms).filter
          (fun x => decide (x ∉ ([] : List String))) = pyUniverse atoms := by
        simp
      rw [hfil]
      omega
    have hsome := detectGo_fuel atoms ((pyUniverse atoms).length + 1) atoms []
      (fun a ha => ha) (by intro x hx; cases hx) hcnt
    obtain ⟨res, hres⟩ := Option.isSome_iff_exists.mp hsome
    have hres0 : res = [] := by
      unfold detect_cycle at h
      rw [hres] at h
      simpa using h
    subst hres0
    obtain ⟨v', hinv, hall, -⟩ := detectGo_complete atoms _ atoms []
      ⟨fun x hx => absurd hx (List.not_mem_nil x),
       fun x hx => absurd hx (List.not_mem_nil x)⟩ hres
    rintro ⟨x, htx⟩
    have hx : ∃ a ∈ atoms, a.id = x := by
      rw [Relation.TransGen.head'_iff] at htx
      obtain ⟨w, hw, -⟩ := htx
      unfold Edge atomDeps at hw
      cases hA : lastAtom? atoms x with
      | none => rw [hA] at hw; cases hw
      | some a =>
        obtain ⟨ha, haid⟩ := lastAtom?_mem atoms x a hA
        exact ⟨a, ha, haid⟩
    obtain ⟨a, ha, haid⟩ := hx
    exact hinv.2 x (haid ▸ hall a ha) (List.not_mem_nil x) htx
  · intro hnc
    by_contra hne
    unfold detect_cycle at hne
    cases hgo : detectGo atoms ((pyUniverse atoms).length + 1) atoms [] with
    | none => rw [hgo] at hne; simp at hne
    | some cyc =>
      rw [hgo] at hne
      simp only [Option.getD_some] at hne
      exact hnc (detectGo_sound atoms _ atoms [] cyc hgo hne)

/-! ## Textual document operations

The remaining scripts manipulate the raw line list.  Shared pieces first:
the `- id:` line parser (`parse_existing_ids`, common to `add_atom.py` and
`decompose_atom.py`) and the `atoms:` section boundary scan. -/

/-- Python `s[n:]` on the character list. -/
def strDrop (n : Nat) (s : String) : String := String.mk (s.data.drop n)

/-- The ubiquitous section-boundary test
`line and not line.startswith(' ') and ':' in line`. -/
def isTopLevel (l : String) : Bool :=
  l != "" && !(pyStartsWith " " l) && l.data.contains ':'

/-- The id carried by a `- id:` line, if this is one: Python
`stripped.split(':', 1)[1].strip().strip('\x22').strip(chr(39))`.  Since a
stripped line beginning with `- id:` has its first colon at index 4,
`split(':', 1)[1]` is the text from index 5 on. -/
def idLine? (l : String) : Option String :=
  let stripped := pyStrip l
  if pyStartsWith "- id:" stripped then
    some (stripQuotes (pyStrip (strDrop 5 stripped)))
  else none

/-- `parse_existing_ids` (identical in `add_atom.py` and
`decompose_atom.py`): every id mentioned on a `- id:` line anywhere in the
document.  The Python function returns a set used only for membership
tests; the list of occurrences carries the same membership. -/
def parse_existing_ids (content : List String) : List String :=
  content.filterMap idLine?

/-- The scan for the end of the `atoms:` section: the first non-empty,
unindented, colon-carrying line after a line starting with `atoms:`
(identical loop in `add_atom.add_atom` and
`decompose_atom.add_child_atoms`). -/
def atomsSectionEnd : List String → Bool → Nat → Option Nat
  | [], _, _ => none
  | l :: ls, inAtoms, i =>
    if pyStartsWith "atoms:" l then atomsSectionEnd ls true (i + 1)
    else if inAtoms && isTopLevel l then some i
    else atomsSectionEnd ls inAtoms (i + 1)

/-- The YAML block built by `add_atom.add_atom` (`if depends_on:` both
branches produce the same line for an empty list, and an empty `or_group`
string is falsy). -/
def add_atom_block (atom_id description : String) (depends_on : List String)
    (or_group : Option String) : List String :=
  ["  - id: " ++ atom_id,
   "    description: \"" ++ description ++ "\"",
   "    status: pending",
   if depends_on ≠ [] then
     "    depends_on: [" ++ String.intercalate ", " depends_on ++ "]"
   else "    depends_on: []"]
  ++ (if pyTruthyStr or_group then ["    or_group: " ++ or_group.getD ""] else [])

/-- `add_atom.add_atom`: insert the atom block at the end of the `atoms:`
section (or at the end of the document when no next section exists). -/
def add_atom (content : List String) (atom_id description : String)
    (depends_on : List String) (or_group : Option String) : List String :=
  let e := (atomsSectionEnd content false 0).getD content.length
  content.take e ++ add_atom_block atom_id description depends_on or_group
    ++ content.drop e

/-- The `main` of `add_atom.py` after argument parsing: duplicate check,
dependency check (in list order), then the insertion.  An error value means
the script exits without writing the file. -/
def add_atom_main (content : List String) (atom_id description : String)
    (depends_on : List String) (or_group : Option String) :
    Except String (List String) :=
  let existing := parse_existing_ids content
  if atom_id ∈ existing then
    Except.error ("Atom ID already exists: " ++ atom_id)
  else
    match depends_on.find? (fun d => !(existing.contains d)) with
    | some d => Except.error ("Dependency not found: " ++ d)
    | none => Except.ok (add_atom content atom_id description depends_on or_group)

theorem pyStrip_ws_head (l : String) (sp : List Char)
    (hsp : ∀ ch ∈ sp, ch ∈ pyWhitespace) (c : Char)
    (hc : ¬ c ∈ pyWhitespace) (rest : List Char)
    (hl : l.data = sp ++ c :: rest) :
    (pyStrip l).data =
      c :: (rest.reverse.dropWhile (fun x => x ∈ pyWhitespace)).reverse := by
  rw [pyStrip, pyStripChars]
  have h1 : ∀ sp' : List Char, (∀ ch ∈ sp', ch ∈ pyWhitespace) →
      (sp' ++ c :: rest).dropWhile (fun x => x ∈ pyWhitespace) = c :: rest := by
    intro sp'
    induction sp' with
    | nil =>
      intro _
      rw [List.nil_append]
      exact List.dropWhile_cons_of_neg (by simpa using hc)
    | cons s sp' ih =>
      intro hsp'
      rw [List.cons_append,
        List.dropWhile_cons_of_pos
          (by simpa using hsp' s (List.mem_cons_self s sp'))]
      exact ih (fun ch hch => hsp' ch (List.mem_cons_of_mem s hch))
  show (((l.data.dropWhile _).reverse.dropWhile _).reverse : List Char) = _
  rw [hl, h1 sp hsp]
  have := rdropWs_append [] rest c hc
  simpa using this

theorem idLine?_none_of_head (l : String) (c : Char) (hne : c ≠ '-')
    (h : ∃ t, (pyStrip l).data = c :: t) : idLine? l = none := by
  obtain ⟨t, ht⟩ := h
  have hfalse : pyStartsWith "- id:" (pyStrip l) = false := by
    unfold pyStartsWith
    rw [ht]
    show ('-' :: " id:".data).isPrefixOf (c :: t) = false
    simp only [List.isPrefixOf]
    rw [show (('-' == c) = false) by simp [Ne.symm hne]]
    rfl
  simp only [idLine?, hfalse, Bool.false_eq_true, if_false]

theorem idLine?_four_space (c : Char) (hc : ¬ c ∈ pyWhitespace)
    (hne : c ≠ '-') (rest l : String)
    (hl : l.data = [' ', ' ', ' ', ' '] ++ c :: rest.data) :
    idLine? l = none :=
  idLine?_none_of_head l c hne
    ⟨_, pyStrip_ws_head l [' ', ' ', ' ', ' '] (by decide) c hc rest.data hl⟩

theorem idLine?_desc (description : String) :
    idLine? ("    description: \"" ++ description ++ "\"") = none := by
  refine idLine?_four_space 'd' (by decide) (by decide)
    ("escription: \"" ++ description ++ "\"") _ ?_
  rw [String.data_append, String.data_append, String.data_append,
    String.data_append]
  rfl

theorem idLine?_deps (deps : String) :
    idLine? ("    depends_on: [" ++ deps ++ "]") = none := by
  refine idLine?_four_space 'd' (by decide) (by decide)
    ("epends_on: [" ++ deps ++ "]") _ ?_
  rw [String.data_append, String.data_append, String.data_append,
    String.data_append]
  rfl

theorem idLine?_or_group (g : String) :
    idLine? ("    or_group: " ++ g) = none := by
  refine idLine?_four_space 'o' (by decide) (by decide) ("r_group: " ++ g) _ ?_
  rw [String.data_append, String.data_append]
  rfl

theorem add_atom_block_ids (atom_id description : String)
    (depends_on : List String) (or_group : Option String) :
    parse_existing_ids (add_atom_block atom_id description depends_on or_group)
      = (idLine? ("  - id: " ++ atom_id)).toList := by
  have hdesc := idLine?_desc description
  have hdeps1 := idLine?_deps (String.intercalate ", " depends_on)
  cases hid : idLine? ("  - id: " ++ atom_id) <;>
    by_cases hd : depends_on ≠ [] <;> by_cases hg : pyTruthyStr or_group <;>
      simp [add_atom_block, parse_existing_ids, List.filterMap_cons, hd, hg,
        hid, hdesc, hdeps1, idLine?_or_group,
        show idLine? "    status: pending" = none from rfl,
        show idLine? "    depends_on: []" = none from rfl]

/-- C7: `add_atom` fails with a duplicate-id error when the id is already
present on any `- id:` line of the document, fails with a
dependency-not-found error when some entry of `depends_on` names no
existing atom, and otherwise succeeds, inserting exactly one new atom block
(id, description, status `pending`, `depends_on`, optional `or_group`) at
the end of the `atoms:` section.  The count statement is relative to the
round-trip condition that the id parses back from its own line, which holds
for every quote-free, whitespace-free id. -/
theorem c7_add_atom_contract (content : List String)
    (atom_id description : String) (depends_on : List String)
    (or_group : Option String) :
    (atom_id ∈ parse_existing_ids content →
      add_atom_main content atom_id description depends_on or_group =
        Except.error ("Atom ID already exists: " ++ atom_id)) ∧
    (atom_id ∉ parse_existing_ids content →
      (∃ d ∈ depends_on, d ∉ parse_existing_ids content) →
      ∃ d, d ∈ depends_on ∧ d ∉ parse_existing_ids content ∧
        add_atom_main content atom_id description depends_on or_group =
          Except.error ("Dependency not found: " ++ d)) ∧
    (atom_id ∉ parse_existing_ids content →
      (∀ d ∈ depends_on, d ∈ parse_existing_ids content) →
      add_atom_main content atom_id description depends_on or_group =
        Except.ok (add_atom content atom_id description depends_on or_group) ∧
      (∃ e, add_atom content atom_id description depends_on or_group =
        content.take e ++ add_atom_block atom_id description depends_on or_group
          ++ content.drop e) ∧
      (idLine? ("  - id: " ++ atom_id) = some atom_id →
        (parse_existing_ids (add_atom content atom_id description depends_on
          or_group)).count atom_id = 1)) := by
  refine ⟨?_, ?_, ?_⟩
  · intro hmem
    unfold add_atom_main
    rw [if_pos hmem]
  · intro hnot hex
    have hsome : (depends_on.find?
        (fun d => !((parse_existing_ids content).contains d))).isSome := by
      rw [List.find?_isSome]
      obtain ⟨d, hd, hdn⟩ := hex
      exact ⟨d, hd, by simpa using hdn⟩
    obtain ⟨d, hfind⟩ := Option.isSome_iff_exists.mp hsome
    refine ⟨d, List.find?_mem hfind, by simpa using List.find?_some hfind, ?_⟩
    unfold add_atom_main
    rw [if_neg hnot, hfind]
  · intro hnot hall
    have hnone : depends_on.find?
        (fun d => !((parse_existing_ids content).contains d)) = none := by
      rw [List.find?_eq_none]
      intro d hd
      simpa using hall d hd
    constructor
    · unfold add_atom_main
      rw [if_neg hnot, hnone]
    constructor
    · exact ⟨(atomsSectionEnd content false 0).getD content.length, rfl⟩
    · intro hround
      have hzero : (parse_existing_ids content).count atom_id = 0 :=
        List.count_eq_zero.mpr hnot
      have hsplit : ∀ e : Nat,
          (parse_existing_ids (content.take e)).count atom_id +
            (parse_existing_ids (content.drop e)).count atom_id = 0 := by
        intro e
        have hparts : parse_existing_ids content =
            parse_existing_ids (content.take e) ++
              parse_existing_ids (content.drop e) := by
          conv_lhs => rw [← List.take_append_drop e content]
          exact List.filterMap_append _ _ _
        rw [hparts, List.count_append] at hzero
        exact hzero
      show (parse_existing_ids
        (content.take _ ++ add_atom_block atom_id description depends_on
          or_group ++ content.drop _)).count atom_id = 1
      unfold parse_existing_ids
      rw [List.filterMap_append, List.filterMap_append,
        List.count_append, List.count_append]
      have hblock := add_atom_block_ids atom_id description depends_on or_group
      unfold parse_existing_ids at hblock
      rw [hblock, hround]
      have hs := hsplit ((atomsSectionEnd content false 0).getD content.length)
      unfold parse_existing_ids at hs
      have hone : ([atom_id] : List String).count atom_id = 1 := by simp
      simp only [Option.toList_some]
      omega

theorem c7_add_atom_contract_witness :
    add_atom_main ["atoms:", "  - id: A1", "    status: pending", "next: 1"]
        "A2" "desc" ["A1"] none =
      Except.ok (add_atom ["atoms:", "  - id: A1", "    status: pending",
        "next: 1"] "A2" "desc" ["A1"] none) ∧
    (parse_existing_ids (add_atom ["atoms:", "  - id: A1",
        "    status: pending", "next: 1"] "A2" "desc" ["A1"] none)).count "A2"
      = 1 ∧
    add_atom_main ["atoms:", "  - id: A1", "    status: pending", "next: 1"]
        "A1" "dup" [] none = Except.error ("Atom ID already exists: A1") :=
  have h := (c7_add_atom_contract ["atoms:", "  - id: A1",
    "    status: pending", "next: 1"] "A2" "desc" ["A1"] none).2.2
    (by decide) (by decide)
  ⟨h.1, h.2.2 (by decide),
    (c7_add_atom_contract ["atoms:", "  - id: A1", "    status: pending",
      "next: 1"] "A1" "dup" [] none).1 (by decide)⟩

/-! ## `decompose_atom.py` -/

/-- Python `stripped.partition(':')` (key/value around the first colon;
everything and an empty value when no colon occurs). -/
def pyPartitionColon (s : String) : String × String :=
  (String.mk (s.data.takeWhile (fun c => c ≠ ':')),
   String.mk ((s.data.dropWhile (fun c => c ≠ ':')).drop 1))

/-- Python `str.split(',')` on a character list (adjacent separators give
empty pieces, the empty string gives one empty piece). -/
def splitOnComma : List Char → List (List Char)
  | [] => [[]]
  | x :: xs =>
    let r := splitOnComma xs
    if x = ',' then [] :: r
    else
      match r with
      | [] => [[x]]
      | y :: ys => (x :: y) :: ys

/-- The `depends_on` value parser shared by the atom scanners:
`value[1:-1].split(',')`, each entry stripped of whitespace and quotes,
empties dropped; a value not starting with `[` yields the empty list. -/
def parseDepsValue (value : String) : List String :=
  if pyStartsWith "[" value then
    ((splitOnComma ((value.data.drop 1).dropLast)).map String.mk).filterMap
      (fun d => if pyStrip d ≠ "" then some (stripQuotes (pyStrip d)) else none)
  else []

/-- The record built by `decompose_atom.parse_atom_info`: the id and the
most recent `depends_on` line of the atom (the only fields that function
tracks). -/
structure AtomInfo where
  id : String
  depends_on : List String
deriving Repr, DecidableEq

/-- The scanning loop of `parse_atom_info`: look for the atom with the
requested id inside the `atoms:` section, returning it as soon as the next
`- id:` line starts (or at the section end / end of file). -/
def parse_atom_info_go (atom_id : String) :
    List String → Bool → Option AtomInfo → Option AtomInfo
  | [], _, cur =>
    match cur with
    | some c => if c.id = atom_id then some c else none
    | none => none
  | l :: ls, inAtoms, cur =>
    if pyStartsWith "atoms:" l then parse_atom_info_go atom_id ls true cur
    else if inAtoms then
      if isTopLevel l then
        match cur with
        | some c => if c.id = atom_id then some c else none
        | none => none
      else if pyStartsWith "- id:" (pyStrip l) then
        match cur with
        | some c =>
          if c.id = atom_id then some c
          else parse_atom_info_go atom_id ls true
            (some ⟨stripQuotes (pyStrip (strDrop 5 (pyStrip l))), []⟩)
        | none => parse_atom_info_go atom_id ls true
            (some ⟨stripQuotes (pyStrip (strDrop 5 (pyStrip l))), []⟩)
      else if cur.isSome && (pyStrip l).data.contains ':' then
        let kv := pyPartitionColon (pyStrip l)
        if pyStrip kv.1 = "depends_on" then
          parse_atom_info_go atom_id ls true
            (cur.map (fun c => ⟨c.id, parseDepsValue (pyStrip kv.2)⟩))
        else parse_atom_info_go atom_id ls true cur
      else parse_atom_info_go atom_id ls true cur
    else parse_atom_info_go atom_id ls false cur

/-- `decompose_atom.parse_atom_info`. -/
def parse_atom_info (content : List String) (atom_id : String) :
    Option AtomInfo :=
  parse_atom_info_go atom_id content false none

/-- The section scan shared by `decompose_atom.add_decomposition_record`
and `switch_or_branch.add_trail_entry`: remember the index of the last line
starting with `key`, rewrite it to the bare `key` when it carries `[]`, and
break at the first later top-level line.  Returns the (partially rewritten)
lines, the last `key` index, and the break index. -/
structure KScan where
  lines : List String
  found : Option Nat
  ns : Option Nat

def keyedScan (key : String) : List String → Nat → Option Nat → KScan
  | [], _, found => ⟨[], found, none⟩
  | l :: ls, i, found =>
    if pyStartsWith key l then
      let l' := if pyContains "[]" l then key else l
      let r := keyedScan key ls (i + 1) (some i)
      ⟨l' :: r.lines, r.found, r.ns⟩
    else if found.isSome && isTopLevel l then ⟨l :: ls, found, some i⟩
    else
      let r := keyedScan key ls (i + 1) found
      ⟨l :: r.lines, r.found, r.ns⟩

/-- The shared insert-into-keyed-section pattern of
`add_decomposition_record` and `add_trail_entry`: scan, then splice the
block in before the following section (or at the end), or return the
document unchanged when no `key` line exists. -/
def keyedInsert (key : String) (block : List String) (content : List String) :
    List String :=
  let r := keyedScan key content 0 none
  if r.found.isSome then
    let idx := r.ns.getD r.lines.length
    r.lines.take idx ++ block ++ r.lines.drop idx
  else content

/-- The block built by `add_decomposition_record` (timestamp passed in). -/
def decomp_block (parent_id : String) (children : List String)
    (reason timestamp : String) : List String :=
  ["  - parent: " ++ parent_id,
   "    children: [" ++ String.intercalate ", " children ++ "]",
   "    reason: \"" ++ reason ++ "\"",
   "    timestamp: \"" ++ timestamp ++ "\""]

/-- `decompose_atom.add_decomposition_record`: insert the record before the
section following `decompositions:`; a document without a `decompositions:`
line is returned unchanged. -/
def add_decomposition_record (content : List String) (parent_id : String)
    (children : List String) (reason timestamp : String) : List String :=
  keyedInsert "decompositions:" (decomp_block parent_id children reason timestamp)
    content

/-- The block of child atoms built by `decompose_atom.add_child_atoms`. -/
def child_block (parent_depends_on children descriptions : List String)
    (parent_id : String) : List String :=
  (children.zip descriptions).flatMap (fun cd =>
    ["  - id: " ++ cd.1,
     "    description: \"" ++ cd.2 ++ "\"",
     "    status: pending",
     "    depends_on: [" ++ String.intercalate ", " parent_depends_on ++ "]",
     "    decomposed_from: " ++ parent_id])

/-- `decompose_atom.add_child_atoms`: insert the child block at the end of
the `atoms:` section. -/
def add_child_atoms (content : List String) (parent_depends_on : List String)
    (children descriptions : List String) (parent_id : String) : List String :=
  let e := (atomsSectionEnd content false 0).getD content.length
  content.take e ++ child_block parent_depends_on children descriptions parent_id
    ++ content.drop e

/-- The `main` of `decompose_atom.py` after argument parsing: parent
lookup, child/description count check, duplicate check, then both
insertions and a single write. -/
def decompose_atom_main (content : List String) (parent_id : String)
    (children descriptions : List String) (reason timestamp : String) :
    Except String (List String) :=
  match parse_atom_info content parent_id with
  | none => Except.error ("Parent atom not found: " ++ parent_id)
  | some parent =>
    if children.length ≠ descriptions.length then
      Except.error ("Number of children (" ++ toString children.length ++
        ") does not match descriptions (" ++ toString descriptions.length ++ ")")
    else
      match children.find? (fun c => (parse_existing_ids content).contains c) with
      | some cid => Except.error ("Child atom ID already exists: " ++ cid)
      | none =>
        Except.ok (add_decomposition_record
          (add_child_atoms content parent.depends_on children descriptions
            parent_id)
          parent_id children reason timestamp)

example : parse_atom_info
    ["---", "atoms:", "  - id: A1", "    description: \"x\"",
     "    status: pending", "    depends_on: [A0, B2]", "  - id: A2",
     "    depends_on: []", "next: 1"] "A1"
    = some ⟨"A1", ["A0", "B2"]⟩ := by decide

example : parse_atom_info
    ["atoms:", "  - id: A1", "    depends_on: []"] "A9" = none := by decide

example : decompose_atom_main
    ["atoms:", "  - id: P", "    depends_on: [A0]", "decompositions: []",
     "trail: []"] "P" ["C1", "C2"] ["one", "two"] "r" "T"
    = Except.ok
      ["atoms:", "  - id: P", "    depends_on: [A0]",
       "  - id: C1", "    description: \"one\"", "    status: pending",
       "    depends_on: [A0]", "    decomposed_from: P",
       "  - id: C2", "    description: \"two\"", "    status: pending",
       "    depends_on: [A0]", "    decomposed_from: P",
       "decompositions:",
       "  - parent: P", "    children: [C1, C2]", "    reason: \"r\"",
       "    timestamp: \"T\"",
       "trail: []"] := by rfl


theorem keyedScan_cons_key {key l : String} (ls : List String) (i : Nat)
    (f : Option Nat) (h : pyStartsWith key l = true) :
    keyedScan key (l :: ls) i f =
      ⟨(if pyContains "[]" l then key else l) ::
          (keyedScan key ls (i + 1) (some i)).lines,
        (keyedScan key ls (i + 1) (some i)).found,
        (keyedScan key ls (i + 1) (some i)).ns⟩ := by
  rw [keyedScan, if_pos h]

theorem keyedScan_cons_break {key l : String} (ls : List String) (i : Nat)
    (f : Option Nat) (h : pyStartsWith key l = false)
    (h2 : (f.isSome && isTopLevel l) = true) :
    keyedScan key (l :: ls) i f = ⟨l :: ls, f, some i⟩ := by
  rw [keyedScan, if_neg (by simp [h]), if_pos h2]

theorem keyedScan_cons_other {key l : String} (ls : List String) (i : Nat)
    (f : Option Nat) (h : pyStartsWith key l = false)
    (h2 : (f.isSome && isTopLevel l) = false) :
    keyedScan key (l :: ls) i f =
      ⟨l :: (keyedScan key ls (i + 1) f).lines,
        (keyedScan key ls (i + 1) f).found,
        (keyedScan key ls (i + 1) f).ns⟩ := by
  rw [keyedScan, if_neg (by simp [h]), if_neg (by simp [h2])]

/-- The pointwise effect of `keyedScan` on a line: unchanged, or an
empty-list `key` header rewritten to the bare `key`. -/
def keyRel (key : String) (a b : String) : Prop :=
  b = a ∨ (b = key ∧ pyStartsWith key a = true)

theorem keyRel_refl (key : String) (l : List String) :
    List.Forall₂ (keyRel key) l l :=
  List.forall₂_same.mpr (fun x _ => Or.inl rfl)

theorem keyedScan_forall₂ (key : String) :
    ∀ (lines : List String) (i : Nat) (f : Option Nat),
      List.Forall₂ (keyRel key) lines (keyedScan key lines i f).lines := by
  intro lines
  induction lines with
  | nil => intro i f; exact List.Forall₂.nil
  | cons l ls ih =>
    intro i f
    by_cases h1 : pyStartsWith key l = true
    · rw [keyedScan_cons_key ls i f h1]
      refine List.Forall₂.cons ?_ (ih (i + 1) (some i))
      by_cases hb : pyContains "[]" l = true
      · rw [if_pos hb]
        exact Or.inr ⟨rfl, h1⟩
      · rw [if_neg hb]
        exact Or.inl rfl
    · rw [Bool.not_eq_true] at h1
      by_cases h2 : (f.isSome && isTopLevel l) = true
      · rw [keyedScan_cons_break ls i f h1 h2]
        exact keyRel_refl key (l :: ls)
      · rw [Bool.not_eq_true] at h2
        rw [keyedScan_cons_other ls i f h1 h2]
        exact List.Forall₂.cons (Or.inl rfl) (ih (i + 1) f)

theorem keyedScan_length (key : String) (lines : List String) (i : Nat)
    (f : Option Nat) : (keyedScan key lines i f).lines.length = lines.length :=
  ((keyedScan_forall₂ key lines i f).length_eq).symm

theorem keyedScan_append_break (key : String) :
    ∀ (x : List String) (i : Nat) (f : Option Nat) (y : List String),
      (keyedScan key x i f).ns.isSome →
      keyedScan key (x ++ y) i f =
        ⟨(keyedScan key x i f).lines ++ y, (keyedScan key x i f).found,
          (keyedScan key x i f).ns⟩ := by
  intro x
  induction x with
  | nil => intro i f y h; simp [keyedScan] at h
  | cons l ls ih =>
    intro i f y h
    by_cases h1 : pyStartsWith key l = true
    · rw [keyedScan_cons_key ls i f h1] at h
      simp only at h
      rw [List.cons_append, keyedScan_cons_key (ls ++ y) i f h1,
        keyedScan_cons_key ls i f h1, ih (i + 1) (some i) y h]
      rfl
    · rw [Bool.not_eq_true] at h1
      by_cases h2 : (f.isSome && isTopLevel l) = true
      · rw [List.cons_append, keyedScan_cons_break (ls ++ y) i f h1 h2,
          keyedScan_cons_break ls i f h1 h2]
        simp [List.cons_append]
      · rw [Bool.not_eq_true] at h2
        rw [keyedScan_cons_other ls i f h1 h2] at h
        simp only at h
        rw [List.cons_append, keyedScan_cons_other (ls ++ y) i f h1 h2,
          keyedScan_cons_other ls i f h1 h2, ih (i + 1) f y h]
        rfl

theorem keyedScan_append_cont (key : String) :
    ∀ (x : List String) (i : Nat) (f : Option Nat) (y : List String),
      (keyedScan key x i f).ns = none →
      keyedScan key (x ++ y) i f =
        ⟨(keyedScan key x i f).lines ++
            (keyedScan key y (i + x.length) (keyedScan key x i f).found).lines,
          (keyedScan key y (i + x.length) (keyedScan key x i f).found).found,
          (keyedScan key y (i + x.length) (keyedScan key x i f).found).ns⟩ := by
  intro x
  induction x with
  | nil =>
    intro i f y _
    simp [keyedScan]
  | cons l ls ih =>
    intro i f y h
    by_cases h1 : pyStartsWith key l = true
    · rw [keyedScan_cons_key ls i f h1] at h
      simp only at h
      rw [List.cons_append, keyedScan_cons_key (ls ++ y) i f h1,
        keyedScan_cons_key ls i f h1, ih (i + 1) (some i) y h]
      simp only [List.length_cons]
      rw [show i + (ls.length + 1) = i + 1 + ls.length by omega]
      rfl
    · rw [Bool.not_eq_true] at h1
      by_cases h2 : (f.isSome && isTopLevel l) = true
      · rw [keyedScan_cons_break ls i f h1 h2] at h
        cases h
      · rw [Bool.not_eq_true] at h2
        rw [keyedScan_cons_other ls i f h1 h2] at h
        simp only at h
        rw [List.cons_append, keyedScan_cons_other (ls ++ y) i f h1 h2,
          keyedScan_cons_other ls i f h1 h2, ih (i + 1) f y h]
        simp only [List.length_cons]
        rw [show i + (ls.length + 1) = i + 1 + ls.length by omega]
        rfl

theorem keyedScan_skip (key : String) :
    ∀ (lines : List String) (i : Nat) (f : Option Nat),
      (∀ l ∈ lines, pyStartsWith key l = false ∧ isTopLevel l = false) →
      keyedScan key lines i f = ⟨lines, f, none⟩ := by
  intro lines
  induction lines with
  | nil => intro i f _; rfl
  | cons l ls ih =>
    intro i f h
    obtain ⟨hk, ht⟩ := h l (List.mem_cons_self l ls)
    rw [keyedScan_cons_other ls i f hk (by simp [ht])]
    rw [ih (i + 1) f (fun x hx => h x (List.mem_cons_of_mem l hx))]

theorem keyedScan_found_iff (key : String) :
    ∀ (lines : List String) (i : Nat) (f : Option Nat),
      (keyedScan key lines i f).found.isSome = true ↔
        (f.isSome = true ∨ ∃ l ∈ lines, pyStartsWith key l = true) := by
  intro lines
  induction lines with
  | nil =>
    intro i f
    simp [keyedScan]
  | cons l ls ih =>
    intro i f
    by_cases h1 : pyStartsWith key l = true
    · rw [keyedScan_cons_key ls i f h1]
      simp only
      rw [ih (i + 1) (some i)]
      constructor
      · intro _
        exact Or.inr ⟨l, List.mem_cons_self l ls, h1⟩
      · intro _
        exact Or.inl rfl
    · rw [Bool.not_eq_true] at h1
      by_cases h2 : (f.isSome && isTopLevel l) = true
      · rw [keyedScan_cons_break ls i f h1 h2]
        simp only
        rw [Bool.and_eq_true] at h2
        constructor
        · intro _
          exact Or.inl h2.1
        · intro _
          exact h2.1
      · rw [Bool.not_eq_true] at h2
        rw [keyedScan_cons_other ls i f h1 h2]
        simp only
        rw [ih (i + 1) f]
        constructor
        · rintro (hf | ⟨x, hx, hpx⟩)
          · exact Or.inl hf
          · exact Or.inr ⟨x, List.mem_cons_of_mem l hx, hpx⟩
        · rintro (hf | ⟨x, hx, hpx⟩)
          · exact Or.inl hf
          · rcases List.mem_cons.mp hx with rfl | hx
            · rw [h1] at hpx
              cases hpx
            · exact Or.inr ⟨x, hx, hpx⟩

theorem keyedScan_ns_bounds (key : String) :
    ∀ (lines : List String) (i : Nat) (f : Option Nat) (n : Nat),
      (keyedScan key lines i f).ns = some n → i ≤ n ∧ n < i + lines.length := by
  intro lines
  induction lines with
  | nil => intro i f n h; cases h
  | cons l ls ih =>
    intro i f n h
    by_cases h1 : pyStartsWith key l = true
    · rw [keyedScan_cons_key ls i f h1] at h
      simp only at h
      have := ih (i + 1) (some i) n h
      simp only [List.length_cons]
      omega
    · rw [Bool.not_eq_true] at h1
      by_cases h2 : (f.isSome && isTopLevel l) = true
      · rw [keyedScan_cons_break ls i f h1 h2] at h
        simp only [Option.some.injEq] at h
        simp only [List.length_cons]
        omega
      · rw [Bool.not_eq_true] at h2
        rw [keyedScan_cons_other ls i f h1 h2] at h
        simp only at h
        have := ih (i + 1) f n h
        simp only [List.length_cons]
        omega

theorem keyedScan_break_found (key : String) :
    ∀ (lines : List String) (i : Nat) (f : Option Nat),
      (keyedScan key lines i f).ns.isSome →
      (keyedScan key lines i f).found.isSome := by
  intro lines
  induction lines with
  | nil => intro i f h; simp [keyedScan] at h
  | cons l ls ih =>
    intro i f h
    by_cases h1 : pyStartsWith key l = true
    · rw [keyedScan_cons_key ls i f h1] at h ⊢
      exact ih (i + 1) (some i) h
    · rw [Bool.not_eq_true] at h1
      by_cases h2 : (f.isSome && isTopLevel l) = true
      · rw [keyedScan_cons_break ls i f h1 h2]
        rw [Bool.and_eq_true] at h2
        exact h2.1
      · rw [Bool.not_eq_true] at h2
        rw [keyedScan_cons_other ls i f h1 h2] at h ⊢
        exact ih (i + 1) f h

theorem pyStartsWith_append_right {p l : String} (x : String)
    (h : pyStartsWith p l = true) : pyStartsWith p (l ++ x) = true := by
  rw [pyStartsWith_iff] at h ⊢
  rw [String.data_append]
  exact h.trans (List.prefix_append _ _)

theorem pyStartsWith_disjoint {p₁ p₂ : String} (l : String)
    (h₁ : ¬ p₁.data <+: p₂.data) (h₂ : ¬ p₂.data <+: p₁.data)
    (h : pyStartsWith p₁ l = true) : pyStartsWith p₂ l = false := by
  rw [Bool.eq_false_iff]
  intro hc
  rw [pyStartsWith_iff] at h hc
  rcases List.prefix_or_prefix_of_prefix h hc with hp | hp
  · exact h₁ hp
  · exact h₂ hp

theorem isTopLevel_false_of_space {l : String}
    (h : pyStartsWith " " l = true) : isTopLevel l = false := by
  unfold isTopLevel
  rw [h]
  simp

/-- The two structural outcomes of `keyedInsert` on a document of the form
`P ++ mid ++ S` where the `mid` segment contains neither `key` headers nor
top-level lines: without any `key` line the document is untouched; with one,
the block is spliced in at a single position, `mid` stays contiguous, and
every original line is preserved up to the `key: []` header rewrite. -/
theorem keyedInsert_cases (key : String) (block P mid S : List String)
    (hmid : ∀ l ∈ mid, pyStartsWith key l = false ∧ isTopLevel l = false) :
    ((∀ l ∈ P ++ S, pyStartsWith key l = false) →
      keyedInsert key block (P ++ mid ++ S) = P ++ mid ++ S) ∧
    ((∃ l ∈ P ++ S, pyStartsWith key l = true) →
      ∃ u w u2 w2,
        keyedInsert key block (P ++ mid ++ S) = u ++ mid ++ w ∧
        keyedInsert key block (P ++ mid ++ S) = u2 ++ block ++ w2 ∧
        List.Forall₂ (keyRel key) (P ++ mid ++ S) (u2 ++ w2)) := by
  constructor
  · intro hno
    rw [List.append_assoc]
    have hfound : (keyedScan key (P ++ (mid ++ S)) 0 none).found.isSome = false := by
      rw [Bool.eq_false_iff]
      intro hc
      rcases (keyedScan_found_iff key (P ++ (mid ++ S)) 0 none).mp hc with hf | ⟨l, hl, hpl⟩
      · cases hf
      · rcases List.mem_append.mp hl with hl2 | hl2
        · rw [hno l (List.mem_append_left S hl2)] at hpl
          cases hpl
        · rcases List.mem_append.mp hl2 with hl3 | hl3
          · rw [(hmid l hl3).1] at hpl
            cases hpl
          · rw [hno l (List.mem_append_right P hl3)] at hpl
            cases hpl
    unfold keyedInsert
    rw [if_neg (by rw [hfound]; exact Bool.false_ne_true)]
  · intro hex
    rw [List.append_assoc]
    cases hns : (keyedScan key P 0 none).ns with
    | some n =>
      have hbreak := keyedScan_append_break key P 0 none (mid ++ S)
        (by rw [hns]; rfl)
      have hfound : (keyedScan key P 0 none).found.isSome :=
        keyedScan_break_found key P 0 none (by rw [hns]; rfl)
      obtain ⟨-, hnP⟩ := keyedScan_ns_bounds key P 0 none n hns
      rw [Nat.zero_add] at hnP
      have hlen : (keyedScan key P 0 none).lines.length = P.length :=
        keyedScan_length key P 0 none
      have hres : keyedInsert key block (P ++ (mid ++ S)) =
          (keyedScan key P 0 none).lines.take n ++ block ++
            ((keyedScan key P 0 none).lines.drop n ++ (mid ++ S)) := by
        unfold keyedInsert
        rw [hbreak]
        simp only [hns]
        rw [if_pos hfound]
        simp only [Option.getD_some]
        rw [List.take_append_of_le_length (by omega),
          List.drop_append_of_le_length (by omega)]
      refine ⟨(keyedScan key P 0 none).lines.take n ++ block ++
          (keyedScan key P 0 none).lines.drop n, S,
        (keyedScan key P 0 none).lines.take n,
        (keyedScan key P 0 none).lines.drop n ++ (mid ++ S), ?_, ?_, ?_⟩
      · rw [hres]
        simp [List.append_assoc]
      · rw [hres]
      · have : (keyedScan key P 0 none).lines.take n ++
            ((keyedScan key P 0 none).lines.drop n ++ (mid ++ S)) =
            (keyedScan key P 0 none).lines ++ (mid ++ S) := by
          rw [← List.append_assoc, List.take_append_drop]
        rw [this]
        exact List.rel_append (keyedScan_forall₂ key P 0 none)
          (keyRel_refl key (mid ++ S))
    | none =>
      have hcont := keyedScan_append_cont key P 0 none (mid ++ S) hns
      have hmidskip := keyedScan_skip key mid (0 + P.length)
        (keyedScan key P 0 none).found hmid
      have hcont2 := keyedScan_append_cont key mid (0 + P.length)
        (keyedScan key P 0 none).found S (by rw [hmidskip])
      rw [hmidskip] at hcont2
      simp only at hcont2
      rw [hcont2] at hcont
      have hfound3 : (keyedScan key S (0 + P.length + mid.length)
          (keyedScan key P 0 none).found).found.isSome = true := by
        rw [keyedScan_found_iff]
        rcases hex with ⟨l, hl, hpl⟩
        rcases List.mem_append.mp hl with hl2 | hl2
        · left
          rw [keyedScan_found_iff]
          exact Or.inr ⟨l, hl2, hpl⟩
        · exact Or.inr ⟨l, hl2, hpl⟩
      have hlen : (keyedScan key P 0 none).lines.length = P.length :=
        keyedScan_length key P 0 none
      have hlenS : (keyedScan key S (0 + P.length + mid.length)
          (keyedScan key P 0 none).found).lines.length = S.length :=
        keyedScan_length key S _ _
      set sl := (keyedScan key P 0 none).lines with hsl
      set r3 := keyedScan key S (0 + P.length + mid.length)
        (keyedScan key P 0 none).found with hr3
      cases hns3 : r3.ns with
      | some m =>
        obtain ⟨hmlo, hmhi⟩ := keyedScan_ns_bounds key S
          (0 + P.length + mid.length) (keyedScan key P 0 none).found m hns3
        have hres : keyedInsert key block (P ++ (mid ++ S)) =
            sl ++ (mid ++ (r3.lines.take (m - sl.length - mid.length) ++ block ++
              r3.lines.drop (m - sl.length - mid.length))) := by
          unfold keyedInsert
          rw [hcont]
          simp only [hns3]
          rw [if_pos hfound3]
          simp only [Option.getD_some]
          rw [List.take_append_eq_append_take,
            List.take_of_length_le (by omega),
            List.take_append_eq_append_take,
            List.take_of_length_le (by omega),
            List.drop_append_eq_append_drop,
            List.drop_of_length_le (by omega),
            List.drop_append_eq_append_drop,
            List.drop_of_length_le (by omega)]
          simp [List.append_assoc]
        refine ⟨sl, r3.lines.take (m - sl.length - mid.length) ++ block ++
            r3.lines.drop (m - sl.length - mid.length),
          sl ++ mid ++ r3.lines.take (m - sl.length - mid.length),
          r3.lines.drop (m - sl.length - mid.length), ?_, ?_, ?_⟩
        · rw [hres]
          simp [List.append_assoc]
        · rw [hres]
          simp [List.append_assoc]
        · have : sl ++ mid ++ r3.lines.take (m - sl.length - mid.length) ++
              r3.lines.drop (m - sl.length - mid.length) =
              sl ++ (mid ++ r3.lines) := by
            rw [List.append_assoc (sl ++ mid), List.take_append_drop,
              List.append_assoc]
          rw [this]
          exact List.rel_append (keyedScan_forall₂ key P 0 none)
            (List.rel_append (keyRel_refl key mid) (keyedScan_forall₂ key S _ _))
      | none =>
        have hres : keyedInsert key block (P ++ (mid ++ S)) =
            sl ++ (mid ++ (r3.lines ++ block)) := by
          unfold keyedInsert
          rw [hcont]
          simp only [hns3]
          rw [if_pos hfound3]
          simp only [Option.getD_none]
          rw [List.take_of_length_le (by omega), List.drop_of_length_le (by omega)]
          simp [List.append_assoc]
        refine ⟨sl, r3.lines ++ block, sl ++ (mid ++ r3.lines), [], ?_, ?_, ?_⟩
        · rw [hres]
          simp [List.append_assoc]
        · rw [hres]
          simp [List.append_assoc]
        · rw [List.append_nil]
          exact List.rel_append (keyedScan_forall₂ key P 0 none)
            (List.rel_append (keyRel_refl key mid) (keyedScan_forall₂ key S _ _))

theorem child_block_space (pd ch ds : List String) (pid : String) :
    ∀ l ∈ child_block pd ch ds pid, pyStartsWith " " l = true := by
  intro l hl
  unfold child_block at hl
  rw [List.mem_flatMap] at hl
  obtain ⟨cd, -, hmem⟩ := hl
  simp only [List.mem_cons, List.not_mem_nil, or_false] at hmem
  rcases hmem with rfl | rfl | rfl | rfl | rfl
  · exact pyStartsWith_append_right cd.1 (by decide)
  · exact pyStartsWith_append_right "\"" (pyStartsWith_append_right cd.2 (by decide))
  · decide
  · exact pyStartsWith_append_right "]"
      (pyStartsWith_append_right (String.intercalate ", " pd) (by decide))
  · exact pyStartsWith_append_right pid (by decide)

theorem child_block_mid (pd ch ds : List String) (pid : String) :
    ∀ l ∈ child_block pd ch ds pid,
      pyStartsWith "decompositions:" l = false ∧ isTopLevel l = false :=
  fun l hl =>
    ⟨pyStartsWith_disjoint l (by decide) (by decide)
        (child_block_space pd ch ds pid l hl),
      isTopLevel_false_of_space (child_block_space pd ch ds pid l hl)⟩

/-- C3 (amended): a successful decomposition implies the parent was found,
the child and description counts match, no child id collides with an
existing one, and the result contains the whole child block — each child
with status `pending`, a `depends_on` list value-copied from the parent and
a `decomposed_from` tag — contiguously.  The decomposition record is
appended exactly when the document carries a `decompositions:` section
header (with no such header the children are persisted and success is
reported, but no record is written); apart from the two insertions, the
only change is that an empty `decompositions: []` header may be rewritten
to `decompositions:`, so the parent's atom entry is untouched. -/
theorem c3_decompose_contract (content : List String) (parent_id : String)
    (children descriptions : List String) (reason timestamp : String)
    (res : List String)
    (h : decompose_atom_main content parent_id children descriptions reason
      timestamp = Except.ok res) :
    ∃ parent : AtomInfo,
      parse_atom_info content parent_id = some parent ∧
      children.length = descriptions.length ∧
      (∀ c ∈ children, c ∉ parse_existing_ids content) ∧
      (∃ u w, res =
        u ++ child_block parent.depends_on children descriptions parent_id
          ++ w) ∧
      ((∀ l ∈ content, pyStartsWith "decompositions:" l = false) →
        res = add_child_atoms content parent.depends_on children descriptions
          parent_id) ∧
      ((∃ l ∈ content, pyStartsWith "decompositions:" l = true) →
        ∃ u2 w2,
          res = u2 ++ decomp_block parent_id children reason timestamp ++ w2 ∧
          List.Forall₂ (keyRel "decompositions:")
            (add_child_atoms content parent.depends_on children descriptions
              parent_id) (u2 ++ w2)) := by
  unfold decompose_atom_main at h
  cases hp : parse_atom_info content parent_id with
  | none => rw [hp] at h; cases h
  | some parent =>
    rw [hp] at h
    dsimp only at h
    by_cases hlen : children.length ≠ descriptions.length
    · rw [if_pos hlen] at h
      cases h
    · rw [if_neg hlen] at h
      rw [Ne, Decidable.not_not] at hlen
      cases hdup : children.find?
          (fun c => (parse_existing_ids content).contains c) with
      | some cid => rw [hdup] at h; cases h
      | none =>
        rw [hdup] at h
        dsimp only at h
        have hres : res = add_decomposition_record
            (add_child_atoms content parent.depends_on children descriptions
              parent_id) parent_id children reason timestamp := by
          injection h with h'
          exact h'.symm
        have hdups : ∀ c ∈ children, c ∉ parse_existing_ids content := by
          intro c hc
          have := List.find?_eq_none.mp hdup c hc
          simpa using this
        set e := (atomsSectionEnd content false 0).getD content.length with he
        have hsplit : add_child_atoms content parent.depends_on children
            descriptions parent_id =
            content.take e ++ child_block parent.depends_on children
              descriptions parent_id ++ content.drop e := rfl
        have hPS : content.take e ++ content.drop e = content :=
          List.take_append_drop e content
        have hcases := keyedInsert_cases "decompositions:"
          (decomp_block parent_id children reason timestamp)
          (content.take e)
          (child_block parent.depends_on children descriptions parent_id)
          (content.drop e)
          (child_block_mid parent.depends_on children descriptions parent_id)
        refine ⟨parent, rfl, hlen, hdups, ?_, ?_, ?_⟩
        · by_cases hkey : ∃ l ∈ content, pyStartsWith "decompositions:" l = true
          · obtain ⟨l, hl, hpl⟩ := hkey
            obtain ⟨u, w, u2, w2, h1, -, -⟩ := hcases.2
              ⟨l, by rw [hPS]; exact hl, hpl⟩
            refine ⟨u, w, ?_⟩
            rw [hres, add_decomposition_record, hsplit]
            exact h1
          · have hno : ∀ l ∈ content.take e ++ content.drop e,
                pyStartsWith "decompositions:" l = false := by
              intro l hl
              rw [hPS] at hl
              rw [Bool.eq_false_iff]
              intro hc
              exact hkey ⟨l, hl, hc⟩
            refine ⟨content.take e, content.drop e, ?_⟩
            rw [hres, add_decomposition_record, hsplit]
            exact hcases.1 hno
        · intro hno
          rw [hres, add_decomposition_record, hsplit]
          exact hcases.1 (by rw [hPS]; exact hno)
        · intro hkey
          obtain ⟨l, hl, hpl⟩ := hkey
          obtain ⟨u, w, u2, w2, -, h2, h3⟩ := hcases.2
            ⟨l, by rw [hPS]; exact hl, hpl⟩
          refine ⟨u2, w2, ?_, ?_⟩
          · rw [hres, add_decomposition_record, hsplit]
            exact h2
          · rw [hsplit]
            exact h3

/-- C3, as frozen, fails on a document without a `decompositions:` section:
the decomposition succeeds and adds the children, but no decomposition
record is appended anywhere. -/
theorem c3_counterexample :
    decompose_atom_main ["atoms:", "  - id: P", "    depends_on: []"] "P"
        ["C1"] ["child"] "r" "T" =
      Except.ok ["atoms:", "  - id: P", "    depends_on: []",
        "  - id: C1", "    description: \"child\"", "    status: pending",
        "    depends_on: []", "    decomposed_from: P"] ∧
    (["atoms:", "  - id: P", "    depends_on: []",
      "  - id: C1", "    description: \"child\"", "    status: pending",
      "    depends_on: []", "    decomposed_from: P"].all
        (fun l => !(pyStartsWith "  - parent:" l))) = true := by
  constructor
  · rfl
  · decide

theorem c3_decompose_contract_witness :
    ∃ u w,
      (["atoms:", "  - id: P", "    depends_on: [A0]",
        "  - id: C1", "    description: \"one\"", "    status: pending",
        "    depends_on: [A0]", "    decomposed_from: P",
        "  - id: C2", "    description: \"two\"", "    status: pending",
        "    depends_on: [A0]", "    decomposed_from: P",
        "decompositions:",
        "  - parent: P", "    children: [C1, C2]", "    reason: \"r\"",
        "    timestamp: \"T\"",
        "trail: []"] : List String) =
        u ++ child_block ["A0"] ["C1", "C2"] ["one", "two"] "P" ++ w := by
  obtain ⟨parent, hp, -, -, hcb, -, -⟩ := c3_decompose_contract
    ["atoms:", "  - id: P", "    depends_on: [A0]", "decompositions: []",
     "trail: []"] "P" ["C1", "C2"] ["one", "two"] "r" "T" _ rfl
  have hpar : parent = ⟨"P", ["A0"]⟩ := by
    have : parse_atom_info ["atoms:", "  - id: P", "    depends_on: [A0]",
        "decompositions: []", "trail: []"] "P" = some ⟨"P", ["A0"]⟩ := by decide
    rw [this] at hp
    injection hp with h'
    exact h'.symm
  rw [hpar] at hcb
  exact hcb

/-! ## C5: `switch_or_branch.py` -/

/-- The line rewriter of `switch_or_branch.update_or_group_selection`,
carrying the `in_or_groups` / `in_target_group` flags.  An `or_groups:`
header carrying `\x7b\x7d` (the empty dict) is expanded into a freshly
created group; otherwise only the `selected:` line of the already-present
target group is replaced. -/
def update_or_group_go (g s : String) : List String → Bool → Bool → List String
  | [], _, _ => []
  | l :: ls, inOr, inTgt =>
    if pyStartsWith "or_groups:" l then
      if pyContains "{}" l then
        "or_groups:" :: ("  " ++ g ++ ":") :: "    choices: []" ::
          ("    selected: " ++ s) :: "    failed: []" ::
          update_or_group_go g s ls false inTgt
      else l :: update_or_group_go g s ls true inTgt
    else if inOr then
      let cleared := isTopLevel l
      let inOr2 := !cleared
      let inTgt2 := if cleared then false else inTgt
      if pyIndent l = 2 ∧ pyStrip l = g ++ ":" then
        l :: update_or_group_go g s ls inOr2 true
      else if inTgt2 then
        if pyIndent l = 4 ∧ pyStartsWith "selected:" (pyStrip l) then
          ("    selected: " ++ s) :: update_or_group_go g s ls inOr2 inTgt2
        else if pyIndent l = 2 ∧ pyEndsWith ":" (pyStrip l) then
          l :: update_or_group_go g s ls inOr2 false
        else l :: update_or_group_go g s ls inOr2 inTgt2
      else l :: update_or_group_go g s ls inOr2 inTgt2
    else l :: update_or_group_go g s ls inOr inTgt

/-- `switch_or_branch.update_or_group_selection`. -/
def update_or_group_selection (content : List String) (g s : String) :
    List String :=
  update_or_group_go g s content false false

/-- The trail entry built by `switch_or_branch.add_trail_entry`. -/
def trail_block (group_name selected reason timestamp : String) : List String :=
  ["  - or_group: " ++ group_name,
   "    selected: " ++ selected,
   "    reason: \"" ++ reason ++ "\"",
   "    timestamp: \"" ++ timestamp ++ "\""]

/-- `switch_or_branch.add_trail_entry`: the same scan-and-splice pattern as
`add_decomposition_record`, on the `trail:` section. -/
def add_trail_entry (content : List String)
    (group_name selected reason timestamp : String) : List String :=
  keyedInsert "trail:" (trail_block group_name selected reason timestamp) content

/-- The `main` of `switch_or_branch.py`: both rewrites, then one write;
there is no failure path once the file exists. -/
def switch_or_branch_main (content : List String)
    (group_name selected reason timestamp : String) : List String :=
  add_trail_entry (update_or_group_selection content group_name selected)
    group_name selected reason timestamp

theorem update_or_group_go_skip (g s : String) :
    ∀ (lines : List String) (inTgt : Bool),
      (∀ l ∈ lines, pyStartsWith "or_groups:" l = false) →
      update_or_group_go g s lines false inTgt = lines := by
  intro lines
  induction lines with
  | nil => intro inTgt _; rfl
  | cons l ls ih =>
    intro inTgt h
    rw [update_or_group_go]
    rw [if_neg (by simp [h l (List.mem_cons_self l ls)])]
    simp only [Bool.false_eq_true, if_false]
    rw [ih inTgt (fun x hx => h x (List.mem_cons_of_mem l hx))]

/-- Python `str.split(c)` on a character list. -/
def pySplitChar (c : Char) : List Char → List (List Char)
  | [] => [[]]
  | x :: xs =>
    let r := pySplitChar c xs
    if x = c then [] :: r
    else
      match r with
      | [] => [[x]]
      | y :: ys => (x :: y) :: ys

/-- The binding block built by `add_binding.add_binding`: the atom-id
header, the (possibly multi-line) summary, and the artifact list when
non-empty. -/
def binding_lines (atom_id summary : String) (artifacts : List String) :
    List String :=
  ("  " ++ atom_id ++ ":") ::
    ((match (pySplitChar '\n' (pyStrip summary).data).map String.mk with
      | [s0] => ["    summary: \"" ++ s0 ++ "\""]
      | sls => "    summary: |" :: sls.map (fun sl => "      " ++ sl)) ++
      (if artifacts ≠ [] then
        "    artifacts:" :: artifacts.map (fun a => "      - \"" ++ a ++ "\"")
      else []))

/-- The result of the scanning loop of `add_binding.add_binding`: the
`bindings:` header index, the bounds of an existing binding for the atom,
and the next-section index. -/
structure BScan where
  blIdx : Option Nat
  ebStart : Option Nat
  ebEnd : Option Nat
  ns : Option Nat

/-- The scanning loop of `add_binding.add_binding`. -/
def bscanGo (atom_id : String) :
    List String → Nat → Bool → Option Nat → Option Nat → Option Nat → BScan
  | [], _, _, bl, s, e => ⟨bl, s, e, none⟩
  | l :: ls, i, inB, bl, s, e =>
    if pyStartsWith "bindings:" l then bscanGo atom_id ls (i + 1) true (some i) s e
    else if inB then
      if isTopLevel l then ⟨bl, s, e, some i⟩
      else if pyIndent l = 2 ∧ pyStrip l = atom_id ++ ":" then
        bscanGo atom_id ls (i + 1) true bl (some i) e
      else if s.isSome ∧ e = none then
        bscanGo atom_id ls (i + 1) true bl s
          (if pyIndent l = 2 ∧ pyEndsWith ":" (pyStrip l) then some i else e)
      else bscanGo atom_id ls (i + 1) true bl s e
    else bscanGo atom_id ls (i + 1) false bl s e

/-- `add_binding.add_binding`: replace the existing binding block, insert a
fresh one into the `bindings:` section (rewriting an empty-dict header), or
— lacking a `bindings:` section — return the document unchanged. -/
def add_binding (content : List String) (atom_id summary : String)
    (artifacts : List String) : List String :=
  let r := bscanGo atom_id content 0 false none none none
  match r.ebStart with
  | some st =>
    let en := match r.ebEnd with
      | some e => e
      | none => r.ns.getD content.length
    content.take st ++ binding_lines atom_id summary artifacts
      ++ content.drop en
  | none =>
    match r.blIdx with
    | some bi =>
      let lines2 := if pyContains "{}" (content.getD bi "") then
        content.set bi "bindings:" else content
      let idx := r.ns.getD content.length
      lines2.take idx ++ binding_lines atom_id summary artifacts
        ++ lines2.drop idx
    | none => content

example : add_binding ["bindings:", "next: 1"] "A1" "did it" ["out.txt"] =
    ["bindings:", "  A1:", "    summary: \"did it\"", "    artifacts:",
     "      - \"out.txt\"", "next: 1"] := by decide

example : add_binding ["bindings: {}", "next: 1"] "A1" "one\ntwo" [] =
    ["bindings:", "  A1:", "    summary: |", "      one", "      two",
     "next: 1"] := by decide

example : add_binding ["bindings:", "  A1:", "    summary: \"old\"",
      "next: 1"] "A1" "new" [] =
    ["bindings:", "  A1:", "    summary: \"new\"", "next: 1"] := by decide

example : add_binding ["atoms:", "  - id: A1"] "A1" "s" [] =
    ["atoms:", "  - id: A1"] := by decide

/-- A line the `add_binding` scanner passes over inside the bindings
section: not a `bindings:` header, not a top-level key, and not a binding
header for the atom. -/
abbrev SecLine (X l : String) : Prop :=
  pyStartsWith "bindings:" l = false ∧ isTopLevel l = false ∧
    ¬(pyIndent l = 2 ∧ pyStrip l = X ++ ":")

/-- A line inside an existing binding body: a `SecLine` that moreover does
not close the block (indent-2 line ending in a colon). -/
abbrev BodyLine (X l : String) : Prop :=
  SecLine X l ∧ ¬(pyIndent l = 2 ∧ pyEndsWith ":" (pyStrip l))

/-- The section following the bindings section: either nothing, or a
top-level key line (that is not itself a `bindings:` header). -/
abbrev SecEnd (post : List String) : Prop :=
  post = [] ∨ ∃ p ps, post = p :: ps ∧ pyStartsWith "bindings:" p = false ∧
    isTopLevel p = true

theorem bscanGo_cons_bind (X l : String) (ls : List String) (i : Nat)
    (inB : Bool) (bl s e : Option Nat)
    (h : pyStartsWith "bindings:" l = true) :
    bscanGo X (l :: ls) i inB bl s e = bscanGo X ls (i + 1) true (some i) s e := by
  rw [bscanGo, if_pos h]

theorem bscanGo_cons_out (X l : String) (ls : List String) (i : Nat)
    (bl s e : Option Nat) (h : pyStartsWith "bindings:" l = false) :
    bscanGo X (l :: ls) i false bl s e = bscanGo X ls (i + 1) false bl s e := by
  rw [bscanGo]
  simp [h]

theorem bscanGo_cons_top (X l : String) (ls : List String) (i : Nat)
    (bl s e : Option Nat) (h1 : pyStartsWith "bindings:" l = false)
    (h2 : isTopLevel l = true) :
    bscanGo X (l :: ls) i true bl s e = ⟨bl, s, e, some i⟩ := by
  rw [bscanGo]
  simp [h1, h2]

theorem bscanGo_cons_header (X l : String) (ls : List String) (i : Nat)
    (bl s e : Option Nat) (h1 : pyStartsWith "bindings:" l = false)
    (h2 : isTopLevel l = false) (h3 : pyIndent l = 2)
    (h4 : pyStrip l = X ++ ":") :
    bscanGo X (l :: ls) i true bl s e = bscanGo X ls (i + 1) true bl (some i) e := by
  rw [bscanGo]
  simp [h1, h2, h3, h4]

theorem bscanGo_cons_sec (X l : String) (ls : List String) (i : Nat)
    (bl e : Option Nat) (h : SecLine X l) :
    bscanGo X (l :: ls) i true bl none e = bscanGo X ls (i + 1) true bl none e := by
  rw [bscanGo]
  simp [h.1, h.2.1, h.2.2]

theorem bscanGo_cons_body (X l : String) (ls : List String) (i st : Nat)
    (bl : Option Nat) (h : BodyLine X l) :
    bscanGo X (l :: ls) i true bl (some st) none
      = bscanGo X ls (i + 1) true bl (some st) none := by
  rw [bscanGo]
  simp [h.1.1, h.1.2.1, h.1.2.2, h.2]

theorem bscanGo_app_out (X : String) :
    ∀ (pre rest : List String) (i : Nat) (bl s e : Option Nat),
      (∀ l ∈ pre, pyStartsWith "bindings:" l = false) →
      bscanGo X (pre ++ rest) i false bl s e
        = bscanGo X rest (i + pre.length) false bl s e
  | [], rest, i, bl, s, e, _ => by simp
  | p :: ps, rest, i, bl, s, e, hpre => by
    rw [List.cons_append,
      bscanGo_cons_out X p _ i bl s e (hpre p (List.mem_cons_self _ _)),
      bscanGo_app_out X ps rest (i + 1) bl s e
        (fun l hl => hpre l (List.mem_cons_of_mem _ hl))]
    have harith : i + 1 + ps.length = i + (p :: ps).length := by
      simp only [List.length_cons]
      omega
    rw [harith]

theorem bscanGo_app_sec (X : String) :
    ∀ (sec rest : List String) (i : Nat) (bl e : Option Nat),
      (∀ l ∈ sec, SecLine X l) →
      bscanGo X (sec ++ rest) i true bl none e
        = bscanGo X rest (i + sec.length) true bl none e
  | [], rest, i, bl, e, _ => by simp
  | p :: ps, rest, i, bl, e, hsec => by
    rw [List.cons_append,
      bscanGo_cons_sec X p _ i bl e (hsec p (List.mem_cons_self _ _)),
      bscanGo_app_sec X ps rest (i + 1) bl e
        (fun l hl => hsec l (List.mem_cons_of_mem _ hl))]
    have harith : i + 1 + ps.length = i + (p :: ps).length := by
      simp only [List.length_cons]
      omega
    rw [harith]

theorem bscanGo_app_body (X : String) :
    ∀ (body rest : List String) (i st : Nat) (bl : Option Nat),
      (∀ l ∈ body, BodyLine X l) →
      bscanGo X (body ++ rest) i true bl (some st) none
        = bscanGo X rest (i + body.length) true bl (some st) none
  | [], rest, i, st, bl, _ => by simp
  | p :: ps, rest, i, st, bl, hbody => by
    rw [List.cons_append,
      bscanGo_cons_body X p _ i st bl (hbody p (List.mem_cons_self _ _)),
      bscanGo_app_body X ps rest (i + 1) st bl
        (fun l hl => hbody l (List.mem_cons_of_mem _ hl))]
    have harith : i + 1 + ps.length = i + (p :: ps).length := by
      simp only [List.length_cons]
      omega
    rw [harith]

/-- The scan of a document whose bindings section contains no binding for
the atom: only the header index (and, when a later section follows, the
next-section index) are set. -/
theorem bscan_fresh (X : String) (pre : List String) (bl : String)
    (sec post : List String)
    (hpre : ∀ l ∈ pre, pyStartsWith "bindings:" l = false)
    (hbl : pyStartsWith "bindings:" bl = true)
    (hsec : ∀ l ∈ sec, SecLine X l) (hpost : SecEnd post) :
    bscanGo X (pre ++ bl :: (sec ++ post)) 0 false none none none
      = ⟨some pre.length, none, none,
          if post.isEmpty then none else some (pre.length + 1 + sec.length)⟩ := by
  rw [bscanGo_app_out X pre _ 0 none none none hpre, Nat.zero_add,
    bscanGo_cons_bind X bl _ pre.length false none none none hbl,
    bscanGo_app_sec X sec post (pre.length + 1) (some pre.length) none hsec]
  rcases hpost with h | ⟨p, ps, hp, hb, ht⟩
  · subst h
    simp [bscanGo]
  · subst hp
    rw [bscanGo_cons_top X p ps _ _ _ _ hb ht]
    simp

/-- The scan of a document whose bindings section contains exactly one
binding block for the atom, closed off by the end of the section. -/
theorem bscan_existing (X : String) (pre : List String) (bl : String)
    (sec : List String) (xh : String) (body post : List String)
    (hpre : ∀ l ∈ pre, pyStartsWith "bindings:" l = false)
    (hbl : pyStartsWith "bindings:" bl = true)
    (hsec : ∀ l ∈ sec, SecLine X l)
    (hxh : pyStartsWith "bindings:" xh = false ∧ isTopLevel xh = false ∧
      pyIndent xh = 2 ∧ pyStrip xh = X ++ ":")
    (hbody : ∀ l ∈ body, BodyLine X l) (hpost : SecEnd post) :
    bscanGo X (pre ++ bl :: (sec ++ (xh :: (body ++ post)))) 0 false none none none
      = ⟨some pre.length, some (pre.length + 1 + sec.length), none,
          if post.isEmpty then none
          else some (pre.length + 1 + sec.length + 1 + body.length)⟩ := by
  rw [bscanGo_app_out X pre _ 0 none none none hpre, Nat.zero_add,
    bscanGo_cons_bind X bl _ pre.length false none none none hbl,
    bscanGo_app_sec X sec _ (pre.length + 1) (some pre.length) none hsec,
    bscanGo_cons_header X xh _ _ _ _ _ hxh.1 hxh.2.1 hxh.2.2.1 hxh.2.2.2,
    bscanGo_app_body X body post _ _ _ hbody]
  rcases hpost with h | ⟨p, ps, hp, hb, ht⟩
  · subst h
    simp [bscanGo]
  · subst hp
    rw [bscanGo_cons_top X p ps _ _ _ _ hb ht]
    simp

theorem binding_splice_take (pre : List String) (bl : String)
    (sec rest : List String) :
    (pre ++ bl :: (sec ++ rest)).take (pre.length + 1 + sec.length)
      = pre ++ bl :: sec := by
  have hA : pre ++ bl :: (sec ++ rest) = (pre ++ bl :: sec) ++ rest := by
    simp
  have hL : pre.length + 1 + sec.length = (pre ++ bl :: sec).length := by
    simp only [List.length_append, List.length_cons]
    omega
  rw [hA, hL, List.take_left]

theorem binding_splice_drop (pre : List String) (bl : String)
    (sec post : List String) :
    (pre ++ bl :: (sec ++ post)).drop (pre.length + 1 + sec.length) = post := by
  have hA : pre ++ bl :: (sec ++ post) = (pre ++ bl :: sec) ++ post := by
    simp
  have hL : pre.length + 1 + sec.length = (pre ++ bl :: sec).length := by
    simp only [List.length_append, List.length_cons]
    omega
  rw [hA, hL, List.drop_left]

theorem binding_splice_drop2 (pre : List String) (bl : String)
    (sec : List String) (xh : String) (body post : List String) :
    (pre ++ bl :: (sec ++ (xh :: (body ++ post)))).drop
        (pre.length + 1 + sec.length + 1 + body.length) = post := by
  have hA : pre ++ bl :: (sec ++ (xh :: (body ++ post)))
      = (pre ++ bl :: (sec ++ (xh :: body))) ++ post := by
    simp
  have hL : pre.length + 1 + sec.length + 1 + body.length
      = (pre ++ bl :: (sec ++ (xh :: body))).length := by
    simp only [List.length_append, List.length_cons]
    omega
  rw [hA, hL, List.drop_left]

/-- `add_binding` on a document whose bindings section holds no binding for
the atom: the block is inserted at the end of the section, and an
empty-dict `bindings: {}` header is rewritten to `bindings:`. -/
theorem add_binding_fresh (X s : String) (a : List String)
    (pre : List String) (bl : String) (sec post : List String)
    (hpre : ∀ l ∈ pre, pyStartsWith "bindings:" l = false)
    (hbl : pyStartsWith "bindings:" bl = true)
    (hsec : ∀ l ∈ sec, SecLine X l) (hpost : SecEnd post) :
    add_binding (pre ++ bl :: (sec ++ post)) X s a
      = pre ++ (if pyContains "{}" bl then "bindings:" else bl) ::
          (sec ++ (binding_lines X s a ++ post)) := by
  unfold add_binding
  rw [bscan_fresh X pre bl sec post hpre hbl hsec hpost]
  dsimp only
  have hget : (pre ++ bl :: (sec ++ post)).getD pre.length "" = bl := by
    rw [List.getD_append_right pre _ "" pre.length (le_refl _)]
    simp
  have hidx : (if post.isEmpty then (none : Option Nat)
      else some (pre.length + 1 + sec.length)).getD
        (pre ++ bl :: (sec ++ post)).length = pre.length + 1 + sec.length := by
    rcases post with _ | ⟨p, ps⟩
    · simp only [List.isEmpty_nil, if_true, Option.getD_none]
      simp only [List.length_append, List.length_cons, List.append_nil,
        List.length_nil]
      omega
    · simp
  rw [hget, hidx]
  by_cases hc : pyContains "{}" bl = true
  · rw [if_pos hc, if_pos hc]
    have hset : (pre ++ bl :: (sec ++ post)).set pre.length "bindings:"
        = pre ++ "bindings:" :: (sec ++ post) := by
      rw [List.set_append_right _ _ (le_refl _)]
      simp
    rw [hset, binding_splice_take pre "bindings:" sec post,
      binding_splice_drop pre "bindings:" sec post]
    simp
  · rw [if_neg hc, if_neg hc,
      binding_splice_take pre bl sec post, binding_splice_drop pre bl sec post]
    simp

/-- `add_binding` on a document whose bindings section holds exactly one
binding block for the atom: that block (and nothing else) is replaced by
the new one. -/
theorem add_binding_replace (X s : String) (a : List String)
    (pre : List String) (bl : String) (sec : List String) (xh : String)
    (body post : List String)
    (hpre : ∀ l ∈ pre, pyStartsWith "bindings:" l = false)
    (hbl : pyStartsWith "bindings:" bl = true)
    (hsec : ∀ l ∈ sec, SecLine X l)
    (hxh : pyStartsWith "bindings:" xh = false ∧ isTopLevel xh = false ∧
      pyIndent xh = 2 ∧ pyStrip xh = X ++ ":")
    (hbody : ∀ l ∈ body, BodyLine X l) (hpost : SecEnd post) :
    add_binding (pre ++ bl :: (sec ++ (xh :: (body ++ post)))) X s a
      = pre ++ bl :: (sec ++ (binding_lines X s a ++ post)) := by
  unfold add_binding
  rw [bscan_existing X pre bl sec xh body post hpre hbl hsec hxh hbody hpost]
  dsimp only
  have hen : (if post.isEmpty then (none : Option Nat)
      else some (pre.length + 1 + sec.length + 1 + body.length)).getD
        (pre ++ bl :: (sec ++ (xh :: (body ++ post)))).length
      = pre.length + 1 + sec.length + 1 + body.length := by
    rcases post with _ | ⟨p, ps⟩
    · show (pre ++ bl :: (sec ++ (xh :: (body ++ ([] : List String))))).length
        = pre.length + 1 + sec.length + 1 + body.length
      simp only [List.append_nil, List.length_append, List.length_cons]
      omega
    · simp
  rw [hen]
  rw [binding_splice_take pre bl sec (xh :: (body ++ post)),
    binding_splice_drop2 pre bl sec xh body post]
  simp

theorem pyIndent_ge_four {l : String} (h : pyStartsWith "    " l = true) :
    4 ≤ pyIndent l := by
  rw [pyStartsWith_iff] at h
  obtain ⟨t, ht⟩ := h
  have hd : l.data = ' ' :: ' ' :: ' ' :: ' ' :: t := by
    rw [← ht]
    rfl
  have h1 : l.length = 4 + t.length := by
    show l.data.length = 4 + t.length
    rw [hd]
    simp only [List.length_cons]
    omega
  have h2 : pyLstrip l = String.mk (t.dropWhile (fun c => c ∈ pyWhitespace)) := by
    unfold pyLstrip
    rw [hd]
    rfl
  have h3 : (t.dropWhile (fun c => c ∈ pyWhitespace)).length ≤ t.length :=
    (List.dropWhile_suffix _).length_le
  unfold pyIndent
  rw [h2]
  have h4 : (String.mk (t.dropWhile (fun c => c ∈ pyWhitespace))).length
      = (t.dropWhile (fun c => c ∈ pyWhitespace)).length := rfl
  rw [h4, h1]
  omega

/-- Every line that starts with four spaces is harmless to the
`add_binding` scanner: it is neither a section boundary, a `bindings:`
header, an atom-binding header, nor a block-closing indent-2 key. -/
theorem bodyLine_of_four {X l : String} (h : pyStartsWith "    " l = true) :
    BodyLine X l := by
  have hsp : pyStartsWith " " l = true := by
    rw [pyStartsWith_iff] at h ⊢
    exact List.IsPrefix.trans (by decide) h
  have hind := pyIndent_ge_four h
  exact ⟨⟨pyStartsWith_disjoint l (by decide) (by decide) hsp,
    isTopLevel_false_of_space hsp,
    fun hc => absurd hc.1 (by omega)⟩,
    fun hc => absurd hc.1 (by omega)⟩

/-- The block built by `binding_lines` is its atom-id header followed by
lines that all start with four spaces. -/
theorem binding_lines_shape (X s : String) (a : List String) :
    ∃ body, binding_lines X s a = ("  " ++ X ++ ":") :: body ∧
      ∀ l ∈ body, pyStartsWith "    " l = true := by
  refine ⟨_, rfl, ?_⟩
  intro l hl
  rcases List.mem_append.1 hl with h | h
  · split at h
    · rw [List.mem_singleton] at h
      subst h
      exact pyStartsWith_append_right _ (pyStartsWith_append_right _ (by decide))
    · rcases List.mem_cons.1 h with h | h
      · subst h
        decide
      · obtain ⟨sl, hsl, rfl⟩ := List.mem_map.1 h
        exact pyStartsWith_append_right sl (by decide)
  · split at h
    · rcases List.mem_cons.1 h with h | h
      · subst h
        decide
      · obtain ⟨x, hx, rfl⟩ := List.mem_map.1 h
        exact pyStartsWith_append_right _ (pyStartsWith_append_right x (by decide))
    · exact absurd h (List.not_mem_nil l)

/-- The generated binding header satisfies every scanner-side condition of
an atom-binding header, given the indent/strip round-trip facts for the
atom id. -/
theorem binding_header_facts (X : String)
    (hX : pyIndent ("  " ++ X ++ ":") = 2 ∧ pyStrip ("  " ++ X ++ ":") = X ++ ":") :
    pyStartsWith "bindings:" ("  " ++ X ++ ":") = false ∧
      isTopLevel ("  " ++ X ++ ":") = false ∧
      pyIndent ("  " ++ X ++ ":") = 2 ∧ pyStrip ("  " ++ X ++ ":") = X ++ ":" := by
  have hsp : pyStartsWith " " ("  " ++ X ++ ":") = true := by
    rw [pyStartsWith_iff]
    refine List.IsPrefix.trans (show (" " : String).data <+: ("  " : String).data by decide) ?_
    rw [String.data_append, String.data_append]
    exact (List.prefix_append _ _).trans (List.prefix_append _ _)
  exact ⟨pyStartsWith_disjoint _ (by decide) (by decide) hsp,
    isTopLevel_false_of_space hsp, hX.1, hX.2⟩

theorem bscanGo_cons_close (X l : String) (ls : List String) (i st : Nat)
    (bl : Option Nat)
    (h1 : pyStartsWith "bindings:" l = false) (h2 : isTopLevel l = false)
    (h3 : ¬(pyIndent l = 2 ∧ pyStrip l = X ++ ":"))
    (h4 : pyIndent l = 2 ∧ pyEndsWith ":" (pyStrip l)) :
    bscanGo X (l :: ls) i true bl (some st) none
      = bscanGo X ls (i + 1) true bl (some st) (some i) := by
  have h3' : ¬(pyStrip l = X ++ ":") := fun hc => h3 ⟨h4.1, hc⟩
  rw [bscanGo]
  simp [h1, h2, h3', h4]

theorem bscanGo_cons_after (X l : String) (ls : List String) (i st en : Nat)
    (bl : Option Nat) (h : SecLine X l) :
    bscanGo X (l :: ls) i true bl (some st) (some en)
      = bscanGo X ls (i + 1) true bl (some st) (some en) := by
  rw [bscanGo]
  simp [h.1, h.2.1, h.2.2]

theorem bscanGo_app_after (X : String) :
    ∀ (sec rest : List String) (i st en : Nat) (bl : Option Nat),
      (∀ l ∈ sec, SecLine X l) →
      bscanGo X (sec ++ rest) i true bl (some st) (some en)
        = bscanGo X rest (i + sec.length) true bl (some st) (some en)
  | [], rest, i, st, en, bl, _ => by simp
  | p :: ps, rest, i, st, en, bl, h => by
    rw [List.cons_append,
      bscanGo_cons_after X p _ i st en bl (h p (List.mem_cons_self p ps)),
      bscanGo_app_after X ps rest (i + 1) st en bl
        (fun l hl => h l (List.mem_cons_of_mem p hl))]
    have harith : i + 1 + ps.length = i + (p :: ps).length := by
      simp only [List.length_cons]
      omega
    rw [harith]

/-- The scan of a document whose bindings section holds exactly one binding
block for the atom, closed off in the middle of the section by another
indent-2 key line `yh` (for example another atom's binding header). -/
theorem bscan_existing_mid (X : String) (pre : List String) (bl : String)
    (sec1 : List String) (xh : String) (body : List String) (yh : String)
    (sec2 post : List String)
    (hpre : ∀ l ∈ pre, pyStartsWith "bindings:" l = false)
    (hbl : pyStartsWith "bindings:" bl = true)
    (hsec1 : ∀ l ∈ sec1, SecLine X l)
    (hxh : pyStartsWith "bindings:" xh = false ∧ isTopLevel xh = false ∧
      pyIndent xh = 2 ∧ pyStrip xh = X ++ ":")
    (hbody : ∀ l ∈ body, BodyLine X l)
    (hyh : SecLine X yh ∧ pyIndent yh = 2 ∧ pyEndsWith ":" (pyStrip yh))
    (hsec2 : ∀ l ∈ sec2, SecLine X l) (hpost : SecEnd post) :
    bscanGo X (pre ++ bl :: (sec1 ++ (xh :: (body ++ (yh :: (sec2 ++ post))))))
        0 false none none none
      = ⟨some pre.length, some (pre.length + 1 + sec1.length),
          some (pre.length + 1 + sec1.length + 1 + body.length),
          if post.isEmpty then none
          else some (pre.length + 1 + sec1.length + 1 + body.length + 1
            + sec2.length)⟩ := by
  rw [bscanGo_app_out X pre _ 0 none none none hpre, Nat.zero_add,
    bscanGo_cons_bind X bl _ pre.length false none none none hbl,
    bscanGo_app_sec X sec1 _ (pre.length + 1) (some pre.length) none hsec1,
    bscanGo_cons_header X xh _ _ _ _ _ hxh.1 hxh.2.1 hxh.2.2.1 hxh.2.2.2,
    bscanGo_app_body X body _ _ _ _ hbody,
    bscanGo_cons_close X yh _ _ _ _ hyh.1.1 hyh.1.2.1 hyh.1.2.2
      ⟨hyh.2.1, hyh.2.2⟩,
    bscanGo_app_after X sec2 post _ _ _ _ hsec2]
  rcases hpost with h | ⟨p, ps, hp, hb, ht⟩
  · subst h
    simp [bscanGo]
  · subst hp
    rw [bscanGo_cons_top X p ps _ _ _ _ hb ht]
    simp

/-- `add_binding` on a document whose bindings section holds exactly one
binding block for the atom, followed by further section content: the block
is replaced in place, everything before and after it unchanged. -/
theorem add_binding_replace_mid (X s : String) (a : List String)
    (pre : List String) (bl : String) (sec1 : List String) (xh : String)
    (body : List String) (yh : String) (sec2 post : List String)
    (hpre : ∀ l ∈ pre, pyStartsWith "bindings:" l = false)
    (hbl : pyStartsWith "bindings:" bl = true)
    (hsec1 : ∀ l ∈ sec1, SecLine X l)
    (hxh : pyStartsWith "bindings:" xh = false ∧ isTopLevel xh = false ∧
      pyIndent xh = 2 ∧ pyStrip xh = X ++ ":")
    (hbody : ∀ l ∈ body, BodyLine X l)
    (hyh : SecLine X yh ∧ pyIndent yh = 2 ∧ pyEndsWith ":" (pyStrip yh))
    (hsec2 : ∀ l ∈ sec2, SecLine X l) (hpost : SecEnd post) :
    add_binding (pre ++ bl :: (sec1 ++ (xh :: (body ++ (yh :: (sec2 ++ post))))))
        X s a
      = pre ++ bl :: (sec1 ++ (binding_lines X s a ++ (yh :: (sec2 ++ post)))) := by
  unfold add_binding
  rw [bscan_existing_mid X pre bl sec1 xh body yh sec2 post hpre hbl hsec1 hxh
    hbody hyh hsec2 hpost]
  dsimp only
  rw [binding_splice_take pre bl sec1 (xh :: (body ++ (yh :: (sec2 ++ post)))),
    binding_splice_drop2 pre bl sec1 xh body (yh :: (sec2 ++ post))]
  simp

/-- The section fragment `A ++ binding-block ++ B` holds exactly one
indent-2 header for the atom when `A` and `B` hold none. -/
theorem binding_count_one (X s : String) (a A B : List String)
    (hA : ∀ l ∈ A, ¬(pyIndent l = 2 ∧ pyStrip l = X ++ ":"))
    (hB : ∀ l ∈ B, ¬(pyIndent l = 2 ∧ pyStrip l = X ++ ":"))
    (hX : pyIndent ("  " ++ X ++ ":") = 2 ∧ pyStrip ("  " ++ X ++ ":") = X ++ ":") :
    (A ++ (binding_lines X s a ++ B)).countP
      (fun l => decide (pyIndent l = 2 ∧ pyStrip l = X ++ ":")) = 1 := by
  rw [List.countP_append, List.countP_append]
  have h0 : A.countP (fun l => decide (pyIndent l = 2 ∧ pyStrip l = X ++ ":")) = 0 :=
    List.countP_eq_zero.mpr (fun l hl => by
      simp only [decide_eq_true_eq]
      exact hA l hl)
  have hb0 : B.countP (fun l => decide (pyIndent l = 2 ∧ pyStrip l = X ++ ":")) = 0 :=
    List.countP_eq_zero.mpr (fun l hl => by
      simp only [decide_eq_true_eq]
      exact hB l hl)
  obtain ⟨body2, hb2, hb2f⟩ := binding_lines_shape X s a
  have hbody0 : body2.countP
      (fun l => decide (pyIndent l = 2 ∧ pyStrip l = X ++ ":")) = 0 :=
    List.countP_eq_zero.mpr (fun l hl => by
      simp only [decide_eq_true_eq]
      intro hc
      have h4 := pyIndent_ge_four (hb2f l hl)
      exact absurd hc.1 (by omega))
  rw [h0, hb0, hb2, List.countP_cons, hbody0]
  rw [if_pos (show decide (pyIndent ("  " ++ X ++ ":") = 2 ∧
      pyStrip ("  " ++ X ++ ":") = X ++ ":") = true by
    simp only [decide_eq_true_eq]
    exact hX)]

theorem binding_count_one' (X s : String) (a A : List String)
    (hA : ∀ l ∈ A, ¬(pyIndent l = 2 ∧ pyStrip l = X ++ ":"))
    (hX : pyIndent ("  " ++ X ++ ":") = 2 ∧ pyStrip ("  " ++ X ++ ":") = X ++ ":") :
    (A ++ binding_lines X s a).countP
      (fun l => decide (pyIndent l = 2 ∧ pyStrip l = X ++ ":")) = 1 := by
  have h := binding_count_one X s a A [] hA (by simp) hX
  rw [List.append_nil] at h
  exact h

/-- **C6 (counterexample).** A document whose bindings section already
holds two binding blocks for atom `X` (before any recording) falsifies the
claim: after recording a binding for `X` twice, the document still contains
two `  X:` binding headers, and the stale `summary: "a"` line of the first
block survives — so the document does not hold exactly one binding for `X`
with the second recording's content. -/
theorem c6_counterexample :
    ((add_binding (add_binding ["bindings:", "  X:", "    summary: \"a\"",
        "  X:", "    summary: \"b\""] "X" "s1" []) "X" "s2" []).countP
      (fun l => l == "  X:") = 2) ∧
    "    summary: \"a\"" ∈ add_binding (add_binding ["bindings:", "  X:",
        "    summary: \"a\"", "  X:", "    summary: \"b\""] "X" "s1" []) "X" "s2" [] := by
  decide

/-- **C6 (amended).** On a document whose bindings section holds at most
one pre-existing binding block for atom `X` (and a unique `bindings:`
header), recording a binding for `X` twice — with no precondition on `X`'s
status — leaves exactly one binding block for `X`, whose lines are exactly
the block generated from the second recording's summary and artifacts with
no line of the first recording remaining: appended at the end of the
bindings section when no block for `X` existed (rewriting an empty-dict
`bindings: {}` header to `bindings:`), and replaced in place at the
existing block's position otherwise — whether that block ran to the end of
the section or was followed by further section content.  All other lines
are unchanged. -/
theorem c6_binding_upsert :
    (∀ (X s1 s2 : String) (a1 a2 : List String) (pre : List String)
        (bl : String) (sec post : List String),
      (∀ l ∈ pre, pyStartsWith "bindings:" l = false) →
      pyStartsWith "bindings:" bl = true →
      (∀ l ∈ sec, SecLine X l) → SecEnd post →
      pyIndent ("  " ++ X ++ ":") = 2 ∧ pyStrip ("  " ++ X ++ ":") = X ++ ":" →
      add_binding (add_binding (pre ++ bl :: (sec ++ post)) X s1 a1) X s2 a2
        = pre ++ (if pyContains "{}" bl then "bindings:" else bl) ::
            (sec ++ (binding_lines X s2 a2 ++ post)) ∧
      (sec ++ binding_lines X s2 a2).countP
          (fun l => decide (pyIndent l = 2 ∧ pyStrip l = X ++ ":")) = 1) ∧
    (∀ (X s1 s2 : String) (a1 a2 : List String) (pre : List String)
        (bl : String) (sec1 : List String) (xh : String) (body post : List String),
      (∀ l ∈ pre, pyStartsWith "bindings:" l = false) →
      pyStartsWith "bindings:" bl = true →
      (∀ l ∈ sec1, SecLine X l) →
      (pyStartsWith "bindings:" xh = false ∧ isTopLevel xh = false ∧
        pyIndent xh = 2 ∧ pyStrip xh = X ++ ":") →
      (∀ l ∈ body, BodyLine X l) → SecEnd post →
      pyIndent ("  " ++ X ++ ":") = 2 ∧ pyStrip ("  " ++ X ++ ":") = X ++ ":" →
      add_binding (add_binding (pre ++ bl :: (sec1 ++ (xh :: (body ++ post))))
          X s1 a1) X s2 a2
        = pre ++ bl :: (sec1 ++ (binding_lines X s2 a2 ++ post)) ∧
      (sec1 ++ binding_lines X s2 a2).countP
          (fun l => decide (pyIndent l = 2 ∧ pyStrip l = X ++ ":")) = 1) ∧
    (∀ (X s1 s2 : String) (a1 a2 : List String) (pre : List String)
        (bl : String) (sec1 : List String) (xh : String) (body : List String)
        (yh : String) (sec2 post : List String),
      (∀ l ∈ pre, pyStartsWith "bindings:" l = false) →
      pyStartsWith "bindings:" bl = true →
      (∀ l ∈ sec1, SecLine X l) →
      (pyStartsWith "bindings:" xh = false ∧ isTopLevel xh = false ∧
        pyIndent xh = 2 ∧ pyStrip xh = X ++ ":") →
      (∀ l ∈ body, BodyLine X l) →
      (SecLine X yh ∧ pyIndent yh = 2 ∧ pyEndsWith ":" (pyStrip yh)) →
      (∀ l ∈ sec2, SecLine X l) → SecEnd post →
      pyIndent ("  " ++ X ++ ":") = 2 ∧ pyStrip ("  " ++ X ++ ":") = X ++ ":" →
      add_binding (add_binding
          (pre ++ bl :: (sec1 ++ (xh :: (body ++ (yh :: (sec2 ++ post))))))
          X s1 a1) X s2 a2
        = pre ++ bl :: (sec1 ++ (binding_lines X s2 a2 ++ (yh :: (sec2 ++ post)))) ∧
      (sec1 ++ (binding_lines X s2 a2 ++ (yh :: sec2))).countP
          (fun l => decide (pyIndent l = 2 ∧ pyStrip l = X ++ ":")) = 1) := by
  refine ⟨?_, ?_, ?_⟩
  · intro X s1 s2 a1 a2 pre bl sec post hpre hbl hsec hpost hX
    have hbl' : pyStartsWith "bindings:"
        (if pyContains "{}" bl then "bindings:" else bl) = true := by
      by_cases hc : pyContains "{}" bl = true
      · rw [if_pos hc]
        decide
      · rw [if_neg hc]
        exact hbl
    constructor
    · rw [add_binding_fresh X s1 a1 pre bl sec post hpre hbl hsec hpost]
      obtain ⟨body1, hb1, hb1f⟩ := binding_lines_shape X s1 a1
      rw [hb1, List.cons_append]
      exact add_binding_replace X s2 a2 pre _ sec _ body1 post hpre hbl' hsec
        (binding_header_facts X hX) (fun l hl => bodyLine_of_four (hb1f l hl))
        hpost
    · exact binding_count_one' X s2 a2 sec (fun l hl => (hsec l hl).2.2) hX
  · intro X s1 s2 a1 a2 pre bl sec1 xh body post hpre hbl hsec1 hxh hbody hpost hX
    constructor
    · rw [add_binding_replace X s1 a1 pre bl sec1 xh body post hpre hbl hsec1
        hxh hbody hpost]
      obtain ⟨body1, hb1, hb1f⟩ := binding_lines_shape X s1 a1
      rw [hb1, List.cons_append]
      exact add_binding_replace X s2 a2 pre bl sec1 _ body1 post hpre hbl hsec1
        (binding_header_facts X hX) (fun l hl => bodyLine_of_four (hb1f l hl))
        hpost
    · exact binding_count_one' X s2 a2 sec1 (fun l hl => (hsec1 l hl).2.2) hX
  · intro X s1 s2 a1 a2 pre bl sec1 xh body yh sec2 post hpre hbl hsec1 hxh
      hbody hyh hsec2 hpost hX
    constructor
    · rw [add_binding_replace_mid X s1 a1 pre bl sec1 xh body yh sec2 post hpre
        hbl hsec1 hxh hbody hyh hsec2 hpost]
      obtain ⟨body1, hb1, hb1f⟩ := binding_lines_shape X s1 a1
      rw [hb1, List.cons_append]
      exact add_binding_replace_mid X s2 a2 pre bl sec1 _ body1 yh sec2 post
        hpre hbl hsec1 (binding_header_facts X hX)
        (fun l hl => bodyLine_of_four (hb1f l hl)) hyh hsec2 hpost
    · exact binding_count_one X s2 a2 sec1 (yh :: sec2)
        (fun l hl => (hsec1 l hl).2.2)
        (fun l hl => by
          rcases List.mem_cons.1 hl with h | h
          · subst h
            exact hyh.1.2.2
          · exact (hsec2 l h).2.2)
        hX

theorem c6_binding_upsert_witness :
    (add_binding (add_binding (([] : List String) ++ "bindings:" ::
          (([] : List String) ++ ["next: 1"])) "A1" "one" []) "A1" "two" ["f.txt"]
      = ([] : List String) ++
          (if pyContains "{}" "bindings:" then "bindings:" else "bindings:") ::
          (([] : List String) ++ (binding_lines "A1" "two" ["f.txt"] ++ ["next: 1"]))) ∧
    (([] : List String) ++ binding_lines "A1" "two" ["f.txt"]).countP
        (fun l => decide (pyIndent l = 2 ∧ pyStrip l = "A1" ++ ":")) = 1 ∧
    add_binding (add_binding (([] : List String) ++ "bindings:" ::
          (([] : List String) ++ ("  X:" :: (["    summary: \"old\""] ++
            ("  Y:" :: (["    summary: \"y\""] ++ ["next: 1"])))))) "X" "s1" [])
        "X" "s2" []
      = ([] : List String) ++ "bindings:" :: (([] : List String) ++
          (binding_lines "X" "s2" [] ++ ("  Y:" :: (["    summary: \"y\""] ++
            ["next: 1"])))) := by
  have h1 := c6_binding_upsert.1 "A1" "one" "two" [] ["f.txt"] [] "bindings:"
    [] ["next: 1"] (by simp) (by decide) (by simp)
    (Or.inr ⟨"next: 1", [], rfl, by decide, by decide⟩) (by decide)
  have h3 := (c6_binding_upsert.2.2 "X" "s1" "s2" [] [] [] "bindings:" []
    "  X:" ["    summary: \"old\""] "  Y:" ["    summary: \"y\""] ["next: 1"]
    (by simp) (by decide) (by simp) (by decide) (by decide) (by decide)
    (by decide) (Or.inr ⟨"next: 1", [], rfl, by decide, by decide⟩)
    (by decide)).1
  exact ⟨h1.1, h1.2, h3⟩

/-! ## C8: the mutating mains and their persistence behaviour -/

/-- The rewrite loop of `update_atom.update_atom_status`: walk the lines,
track whether we are inside the target atom, rewrite its `status:` line
(preserving indentation) and record success. -/
def update_atom_go (atom_id new_status : String) :
    List String → Bool → Bool → List String × Bool
  | [], _, found => ([], found)
  | l :: ls, inT, found =>
    let stripped := pyStrip l
    let inT' := if pyStartsWith "- id:" stripped then
        stripQuotes (pyStrip (strDrop 5 stripped)) == atom_id
      else inT
    if inT' && pyStartsWith "status:" stripped then
      let r := update_atom_go atom_id new_status ls false true
      ((String.mk (List.replicate (pyIndent l) ' ') ++ "status: " ++ new_status)
        :: r.1, r.2)
    else
      let r := update_atom_go atom_id new_status ls inT' found
      (l :: r.1, r.2)

/-- `update_atom.update_atom_status`: reject invalid statuses, otherwise
rewrite the target atom's status line, reporting whether it was found. -/
def update_atom_status (content : List String) (atom_id new_status : String) :
    List String × Bool :=
  if new_status = "pending" ∨ new_status = "in_progress" ∨ new_status = "resolved" then
    update_atom_go atom_id new_status content false false
  else (content, false)

/-- `update_atom.main` after the state file is read: on a miss it exits
without writing (the persisted document stays the input), on a hit it
persists the rewritten document. -/
def update_atom_main (content : List String) (atom_id new_status : String) :
    Except String (List String) :=
  let r := update_atom_status content atom_id new_status
  if r.2 then Except.ok r.1 else Except.error ("Atom " ++ atom_id ++ " not found")

/-- `add_binding.main` after the state file is read: it always reports
success and persists `add_binding`'s result. -/
def add_binding_main (content : List String) (atom_id summary : String)
    (artifacts : List String) : Except String (List String) :=
  Except.ok (add_binding content atom_id summary artifacts)

/-- `set_status.main` after the state file is read: it always reports
success and persists `set_loop_status`'s result. -/
def set_status_main (content : List String) (status : String)
    (reason : Option String) : Except String (List String) :=
  Except.ok (set_loop_status content status reason)

example : update_atom_status ["atoms:", "  - id: A1", "    status: pending",
      "  - id: A2", "    status: pending"] "A2" "resolved"
    = (["atoms:", "  - id: A1", "    status: pending", "  - id: A2",
        "    status: resolved"], true) := by decide

example : update_atom_status ["atoms:", "  - id: A1", "    status: pending"]
    "A9" "resolved" = (["atoms:", "  - id: A1", "    status: pending"], false) := by
  decide

example : update_atom_status ["atoms:", "  - id: A1", "    status: pending"]
    "A1" "nonsense" = (["atoms:", "  - id: A1", "    status: pending"], false) := by
  decide

/-- **C8 (counterexample).** On a document with no `bindings:` section,
`add_binding.main` reports success and persists the document unchanged: the
persisted document contains no binding block for the atom, a
reported-successful `add_binding` with no binding added — exactly the
partial outcome the claim rules out. -/
theorem c8_counterexample :
    add_binding_main ["atoms:", "  - id: A1"] "A1" "done" []
      = Except.ok ["atoms:", "  - id: A1"] ∧
    (add_binding ["atoms:", "  - id: A1"] "A1" "done" []).countP
      (fun l => l == "  A1:") = 0 :=
  ⟨rfl, by decide⟩

/-- **C8 (amended).** What the scripts actually guarantee: each mutating
operation either fails before any write — leaving the persisted document
identical to the input: `update_atom` persists the full rewrite exactly
when the atom's status line is found and exits without writing exactly
when it is not; `add_atom` and `decompose_atom` exit on their validation
errors — or persists the complete output of its transformation
function in a single write: `add_binding` and `set_status` always report
success and persist exactly their transformation's output, `add_atom` and
`decompose_atom` persist their full composed insertion on success, and
`switch_or_branch` always persists the composition of its group rewrite
and its trail step.  A reported success, however, does not guarantee the
operation's advertised effect: `add_binding`'s transformation is the
identity when the document has no `bindings:` header, and
`switch_or_branch`'s group rewrite is the identity when the document has
no `or_groups:` header while its trail entry may still be appended. -/
theorem c8_persistence_contract :
    (∀ (content : List String) (X st : String) (nc : List String),
      update_atom_main content X st = Except.ok nc ↔
        update_atom_status content X st = (nc, true)) ∧
    (∀ (content : List String) (X st : String),
      (∃ e, update_atom_main content X st = Except.error e) ↔
        (update_atom_status content X st).2 = false) ∧
    (∀ (content : List String) (X s : String) (a : List String),
      add_binding_main content X s a = Except.ok (add_binding content X s a)) ∧
    (∀ (content : List String) (X s : String) (a : List String),
      (∀ l ∈ content, pyStartsWith "bindings:" l = false) →
        add_binding content X s a = content) ∧
    (∀ (content : List String) (st : String) (r : Option String),
      set_status_main content st r = Except.ok (set_loop_status content st r)) ∧
    (∀ (content : List String) (id desc : String) (deps : List String)
        (og : Option String),
      (∃ e, add_atom_main content id desc deps og = Except.error e) ∨
      add_atom_main content id desc deps og
        = Except.ok (add_atom content id desc deps og)) ∧
    (∀ (content : List String) (pid : String) (cs ds : List String)
        (r ts : String),
      (∃ e, decompose_atom_main content pid cs ds r ts = Except.error e) ∨
      (∃ parent, parse_atom_info content pid = some parent ∧
        decompose_atom_main content pid cs ds r ts
          = Except.ok (add_decomposition_record
              (add_child_atoms content parent.depends_on cs ds pid)
              pid cs r ts))) ∧
    (∀ (content : List String) (g s r ts : String),
      switch_or_branch_main content g s r ts
        = add_trail_entry (update_or_group_selection content g s) g s r ts) ∧
    (∀ (content : List String) (g s r ts : String),
      (∀ l ∈ content, pyStartsWith "or_groups:" l = false) →
      switch_or_branch_main content g s r ts
        = add_trail_entry content g s r ts) := by
  refine ⟨?_, ?_, fun _ _ _ _ => rfl, ?_, fun _ _ _ => rfl, ?_, ?_,
    fun _ _ _ _ _ => rfl, ?_⟩
  · intro content X st nc
    unfold update_atom_main
    rcases hr : update_atom_status content X st with ⟨l, b⟩
    cases b
    · simp
    · simp
  · intro content X st
    unfold update_atom_main
    rcases hr : update_atom_status content X st with ⟨l, b⟩
    cases b
    · simp
    · simp
  · intro content X s a h
    unfold add_binding
    have hscan : bscanGo X content 0 false none none none
        = ⟨none, none, none, none⟩ := by
      have hout := bscanGo_app_out X content [] 0 none none none h
      rw [List.append_nil] at hout
      rw [hout]
      rfl
    rw [hscan]
  · intro content id desc deps og
    unfold add_atom_main
    dsimp only
    by_cases hm : id ∈ parse_existing_ids content
    · rw [if_pos hm]
      exact Or.inl ⟨_, rfl⟩
    · rw [if_neg hm]
      cases hf : deps.find? (fun d => !((parse_existing_ids content).contains d)) with
      | some d => exact Or.inl ⟨_, rfl⟩
      | none => exact Or.inr rfl
  · intro content pid cs ds r ts
    unfold decompose_atom_main
    cases hp : parse_atom_info content pid with
    | none => exact Or.inl ⟨_, rfl⟩
    | some parent =>
      dsimp only
      by_cases hl : cs.length ≠ ds.length
      · rw [if_pos hl]
        exact Or.inl ⟨_, rfl⟩
      · rw [if_neg hl]
        cases hf : cs.find? (fun c => (parse_existing_ids content).contains c) with
        | some cid => exact Or.inl ⟨_, rfl⟩
        | none => exact Or.inr ⟨parent, rfl, rfl⟩
  · intro content g s r ts h
    show add_trail_entry (update_or_group_selection content g s) g s r ts
      = add_trail_entry content g s r ts
    rw [show update_or_group_selection content g s = content from
      update_or_group_go_skip g s content false h]

theorem c8_persistence_contract_witness :
    add_binding ["atoms:", "  - id: A1"] "A1" "done" []
      = ["atoms:", "  - id: A1"] ∧
    switch_or_branch_main ["atoms:", "  - id: A1", "trail: []"] "g1" "b"
        "why" "T"
      = add_trail_entry ["atoms:", "  - id: A1", "trail: []"] "g1" "b"
        "why" "T" :=
  ⟨c8_persistence_contract.2.2.2.1 ["atoms:", "  - id: A1"] "A1" "done" []
      (by decide),
    c8_persistence_contract.2.2.2.2.2.2.2.2
      ["atoms:", "  - id: A1", "trail: []"] "g1" "b" "why" "T" (by decide)⟩

end AotLoop
